import Mathlib

set_option maxRecDepth 8192

/-!
A shallow embedding of the doubly linked list library in `src/list_lib.c`.

Pointers are modelled as natural-number addresses; `Option Nat` is a nullable
pointer (`none` = `NULL`).  The mutable store is explicit: a `State` holds an
association list of allocated `Node` records, an association list of allocated
string copies (the storage `make_node` obtains for `strcpy`), a fresh-address
counter, an allocation oracle (`allocPlan`: each `malloc` call consumes one
entry; `false` makes that call fail, and an exhausted plan means every later
call succeeds), and the caller's `List` struct (`head`/`last` fields).

Each C function becomes a Lean function returning `Option` of its C result
paired with the updated state; the outer `none` marks undefined behavior
(dereferencing a null or dangling pointer, or an out-of-bounds array read),
which the C source never checks for.  The C `int` result codes are kept with
their exact C values: the `Error` enum of the source gives `ALLOC_FAIL = 0`,
`LEN_INVALID = 1`, `NULL_PTR = 2`, and success is the literal `0`.
-/

/-- One C `struct Node`: `prev`/`next` pointers and the `data` pointer, which
is an address into the string heap (the node's owned string copy). -/
structure Node where
  prev : Option Nat
  next : Option Nat
  data : Nat
deriving DecidableEq

/-- The C `List` struct: `head` and `last` pointers. -/
structure ListS where
  head : Option Nat
  last : Option Nat
deriving DecidableEq

/-- The whole mutable store threaded through every operation. -/
structure State where
  nodes : List (Nat × Node)
  strs : List (Nat × String)
  nextAddr : Nat
  allocPlan : List Bool
  lst : ListS
deriving DecidableEq

/-- C enum `Error` value `ALLOC_FAIL` — the first enumerator, hence `0`. -/
def ALLOC_FAIL : Int := 0

/-- C enum `Error` value `LEN_INVALID` (= 1). -/
def LEN_INVALID : Int := 1

/-- C enum `Error` value `NULL_PTR` (= 2). -/
def NULL_PTR : Int := 2

/-- Heap read: first binding of address `a` (fresh allocation always uses a
fresh key, so at most one binding per address ever exists). -/
def hget {α : Type} : List (Nat × α) → Nat → Option α
  | [], _ => none
  | (b, v) :: h, a => if b = a then some v else hget h a

/-- Heap write at an existing address (writes through every binding of `a`). -/
def hset {α : Type} : List (Nat × α) → Nat → α → List (Nat × α)
  | [], _, _ => []
  | (b, w) :: h, a, v => if b = a then (b, v) :: hset h a v else (b, w) :: hset h a v

/-- `free`: drop every binding of address `a`. -/
def hdel {α : Type} : List (Nat × α) → Nat → List (Nat × α)
  | [], _ => []
  | (b, w) :: h, a => if b = a then hdel h a else (b, w) :: hdel h a

/-- The C store `p->prev = v`: fails (undefined behavior) if `p` is dangling. -/
def setPrev (h : List (Nat × Node)) (a : Nat) (v : Option Nat) :
    Option (List (Nat × Node)) :=
  match hget h a with
  | none => none
  | some n => some (hset h a { n with prev := v })

/-- The C store `p->next = v`: fails (undefined behavior) if `p` is dangling. -/
def setNext (h : List (Nat × Node)) (a : Nat) (v : Option Nat) :
    Option (List (Nat × Node)) :=
  match hget h a with
  | none => none
  | some n => some (hset h a { n with next := v })

/-- One `malloc` call against the allocation oracle: pops the next planned
outcome (an exhausted plan means success). -/
def mallocOk (σ : State) : Bool × State :=
  match σ.allocPlan with
  | [] => (true, σ)
  | b :: rest => (b, { σ with allocPlan := rest })

/-- C `insert_after(list, node, new_node)` from `src/list_lib.c`.
Null checks first (returning `NULL_PTR`), then, statement by statement:
`new_node->prev = node`; if `node->next == NULL` then `new_node->next = NULL`,
`list->last = new_node`, else `new_node->next = node->next`,
`node->next->prev = new_node`; finally `node->next = new_node`; returns 0. -/
def insert_after (σ : State) (list : Bool) (node new_node : Option Nat) :
    Option (Int × State) :=
  match list, node, new_node with
  | false, _, _ => some (NULL_PTR, σ)
  | true, none, _ => some (NULL_PTR, σ)
  | true, some _, none => some (NULL_PTR, σ)
  | true, some na, some wa => do
    let h1 ← setPrev σ.nodes wa (some na)
    let n ← hget h1 na
    match n.next with
    | none => do
        let h2 ← setNext h1 wa none
        let h3 ← setNext h2 na (some wa)
        some ((0 : Int), { σ with nodes := h3, lst := { σ.lst with last := some wa } })
    | some ba => do
        let h2 ← setNext h1 wa (some ba)
        let h3 ← setPrev h2 ba (some wa)
        let h4 ← setNext h3 na (some wa)
        some ((0 : Int), { σ with nodes := h4 })

/-- C `insert_before(list, node, new_node)`: the mirror image of
`insert_after`, updating `list->head` when `node->prev == NULL`. -/
def insert_before (σ : State) (list : Bool) (node new_node : Option Nat) :
    Option (Int × State) :=
  match list, node, new_node with
  | false, _, _ => some (NULL_PTR, σ)
  | true, none, _ => some (NULL_PTR, σ)
  | true, some _, none => some (NULL_PTR, σ)
  | true, some na, some wa => do
    let h1 ← setNext σ.nodes wa (some na)
    let n ← hget h1 na
    match n.prev with
    | none => do
        let h2 ← setPrev h1 wa none
        let h3 ← setPrev h2 na (some wa)
        some ((0 : Int), { σ with nodes := h3, lst := { σ.lst with head := some wa } })
    | some pa => do
        let h2 ← setPrev h1 wa (some pa)
        let h3 ← setNext h2 pa (some wa)
        let h4 ← setPrev h3 na (some wa)
        some ((0 : Int), { σ with nodes := h4 })

/-- C `insert_front(list, new_node)`: empty list installs the node as both
`head` and `last` with null links; otherwise delegates to `insert_before`
at the current head. -/
def insert_front (σ : State) (list : Bool) (new_node : Option Nat) :
    Option (Int × State) :=
  match list, new_node with
  | false, _ => some (NULL_PTR, σ)
  | true, none => some (NULL_PTR, σ)
  | true, some wa =>
    match σ.lst.head with
    | none =>
      match hget σ.nodes wa with
      | none => none
      | some w =>
        some ((0 : Int),
          { σ with lst := { head := some wa, last := some wa },
                   nodes := hset σ.nodes wa { w with prev := none, next := none } })
    | some hd => insert_before σ true (some hd) (some wa)

/-- C `insert_end(list, new_node)`: empty list delegates to `insert_front`,
otherwise to `insert_after` at the current `last`. -/
def insert_end (σ : State) (list : Bool) (new_node : Option Nat) :
    Option (Int × State) :=
  match list, new_node with
  | false, _ => some (NULL_PTR, σ)
  | true, none => some (NULL_PTR, σ)
  | true, some wa =>
    match σ.lst.last with
    | none => insert_front σ true (some wa)
    | some la => insert_after σ true (some la) (some wa)

/-- C `remove_node(list, node)`: unlinks `node` (updating `head`/`last` at the
boundaries), then `free(node->data)` and `free(node)`.  Every pointer read is
re-performed from the current store exactly where the C source reads it. -/
def remove_node (σ : State) (list : Bool) (node : Option Nat) :
    Option (Int × State) :=
  match list, node with
  | false, _ => some (NULL_PTR, σ)
  | true, none => some (NULL_PTR, σ)
  | true, some na => do
    let n ← hget σ.nodes na
    let σ1 ←
      match n.prev with
      | none => some { σ with lst := { σ.lst with head := n.next } }
      | some pa => (setNext σ.nodes pa n.next).map fun h => { σ with nodes := h }
    let n1 ← hget σ1.nodes na
    let σ2 ←
      match n1.next with
      | none => some { σ1 with lst := { σ1.lst with last := n1.prev } }
      | some qa => (setPrev σ1.nodes qa n1.prev).map fun h => { σ1 with nodes := h }
    let n2 ← hget σ2.nodes na
    some ((0 : Int), { σ2 with strs := hdel σ2.strs n2.data, nodes := hdel σ2.nodes na })

/-- The loop of C `find`: walk `next` links comparing each node's stored
string (`strcmp(i->data, data) == 0`) with the target.  `fuel` bounds the
walk (the C loop would diverge on a cyclic chain; on every list satisfying
the representation invariant the fuel below is never exhausted). -/
def find_loop (σ : State) (tgt : String) : Option Nat → Nat → Option (Option Nat)
  | none, _ => some none
  | some _, 0 => none
  | some a, fuel + 1 => do
    let n ← hget σ.nodes a
    let s ← hget σ.strs n.data
    if s = tgt then some (some a) else find_loop σ tgt n.next fuel

/-- C `find(list, data)`: returns `NULL` (inner `none`) when either argument
is null or when no node matches; otherwise the first matching node pointer. -/
def find (σ : State) (list : Bool) (data : Option String) : Option (Option Nat) :=
  match list, data with
  | false, _ => some none
  | true, none => some none
  | true, some tgt => find_loop σ tgt σ.lst.head (σ.nodes.length + 1)

/-- C `make_node(data)`: `malloc` the node struct, then `malloc` the string
copy (freeing the node struct if that second allocation fails), then
`strcpy`.  Returns the new node pointer, or `NULL` on allocation failure.
The not-yet-initialized `data` field of the freshly allocated struct is
modelled as `0`; it is either overwritten or freed before it can be read. -/
def make_node (σ : State) (data : String) : Option Nat × State :=
  let (ok1, σ1) := mallocOk σ
  if ok1 = false then (none, σ1)
  else
    let na := σ1.nextAddr
    let σ2 := { σ1 with nodes := (na, ⟨none, none, 0⟩) :: σ1.nodes, nextAddr := na + 1 }
    let (ok2, σ3) := mallocOk σ2
    if ok2 = false then (none, { σ3 with nodes := hdel σ3.nodes na })
    else
      let sa := σ3.nextAddr
      (some na, { σ3 with strs := (sa, data) :: σ3.strs, nextAddr := sa + 1,
                          nodes := hset σ3.nodes na ⟨none, none, sa⟩ })

/-- The loop of C `dealloc_list`: walk from the given pointer, saving `next`
before `free(i->data); free(i)`.  `fuel` bounds the walk. -/
def dealloc_loop : State → Option Nat → Nat → Option State
  | σ, none, _ => some σ
  | _, some _, 0 => none
  | σ, some a, fuel + 1 => do
    let n ← hget σ.nodes a
    dealloc_loop { σ with strs := hdel σ.strs n.data, nodes := hdel σ.nodes a }
      n.next fuel

/-- C `dealloc_list(list)`: a no-op on a null list; otherwise frees every
node reachable from `list->head` together with its string copy.  Note the C
source never writes `list->head` or `list->last` here. -/
def dealloc_list (σ : State) (list : Bool) : Option State :=
  match list with
  | false => some σ
  | true => dealloc_loop σ σ.lst.head (σ.nodes.length + 1)

/-- The loop of C `init_list`: for `i` from the current index while fuel
(= remaining iterations, initially `data_len`) lasts, `make_node(data[i])`;
on allocation failure `dealloc_list(list)` and return `ALLOC_FAIL`; otherwise
`insert_end`.  Reading past the end of the supplied sequence is undefined
behavior (`none`). -/
def init_loop (ds : List String) : State → Nat → Nat → Option (Int × State)
  | σ, _, 0 => some ((0 : Int), σ)
  | σ, i, fuel + 1 => do
    let s ← ds[i]?
    match make_node σ s with
    | (none, σ1) => do
      let σ2 ← dealloc_list σ1 true
      some (ALLOC_FAIL, σ2)
    | (some na, σ1) => do
      let (_, σ2) ← insert_end σ1 true (some na)
      init_loop ds σ2 (i + 1) fuel

/-- C `init_list(list, data, data_len)`: null `data` fails with `NULL_PTR`;
negative `data_len` fails with `LEN_INVALID`; only then does the code write
`list->head = NULL; list->last = NULL` — through a null `list` pointer this
is undefined behavior (`none`), there is no null check on `list` — and run
the allocation loop. -/
def init_list (σ : State) (list : Bool) (data : Option (List String))
    (data_len : Int) : Option (Int × State) :=
  match data with
  | none => some (NULL_PTR, σ)
  | some ds =>
    if data_len < 0 then some (LEN_INVALID, σ)
    else
      match list with
      | false => none
      | true =>
        init_loop ds { σ with lst := { head := none, last := none } } 0 data_len.toNat

/-- The harness's `test_print_list` walk, reading off the stored strings from
head to tail (the observable front-to-back contents of a list). -/
def chainData (σ : State) : Option Nat → Nat → List String
  | none, _ => []
  | some _, 0 => []
  | some a, fuel + 1 =>
    match hget σ.nodes a with
    | none => []
    | some n =>
      match hget σ.strs n.data with
      | none => []
      | some s => s :: chainData σ n.next fuel

/-- The first address of `as`, or `q` when `as` is empty (the value a `next`
link entering the segment `as` must carry). -/
def frontOr : List Nat → Option Nat → Option Nat
  | [], q => q
  | a :: _, _ => some a

/-- The final address of `as`, or `p` when `as` is empty (the value a `prev`
link leaving the segment `as` must carry). -/
def backOr : List Nat → Option Nat → Option Nat
  | [], p => p
  | a :: l, _ => backOr l (some a)

/-- Executable doubly-linked-segment predicate: the addresses `as`, read in
order, are allocated nodes whose `prev` links chain back starting from `p`
and whose `next` links chain forward ending in `q`. -/
def segb (h : List (Nat × Node)) : Option Nat → List Nat → Option Nat → Bool
  | _, [], _ => true
  | p, a :: l, q =>
    match hget h a with
    | none => false
    | some n => decide (n.prev = p) && decide (n.next = frontOr l q) && segb h (some a) l q

/-- The allocated addresses of a heap. -/
def keysOf {α : Type} (h : List (Nat × α)) : List Nat := h.map Prod.fst

/-- The `data` field (string address) of the node at `a` (`0` if dangling;
only ever used at allocated addresses). -/
def dataOf (σ : State) (a : Nat) : Nat :=
  match hget σ.nodes a with
  | some n => n.data
  | none => 0

/-- The stored string of the node at `a`, following `data` into the string
heap. -/
def strOf (σ : State) (a : Nat) : Option String :=
  match hget σ.nodes a with
  | some n => hget σ.strs n.data
  | none => none

/-- The §3 representation invariant of a list whose members are the addresses
`as` in head-to-tail order: `head`/`last` are the boundary addresses (absent
iff empty, invariant 1), the chain is bidirectionally consistent and
terminates (invariants 2 and 3, via `segb`), no node appears twice
(invariant 4), every member's stored string is allocated, and the members'
owned string copies are pairwise distinct storage. -/
def listInv (σ : State) (as : List Nat) : Prop :=
  σ.lst.head = frontOr as none ∧
  σ.lst.last = backOr as none ∧
  as.Nodup ∧
  segb σ.nodes none as none = true ∧
  (∀ a ∈ as, (strOf σ a).isSome = true) ∧
  (as.map (dataOf σ)).Nodup

/-- Allocator well-formedness: every allocated address is below the
fresh-address counter. -/
def stateWF (σ : State) : Prop :=
  (∀ a ∈ keysOf σ.nodes, a < σ.nextAddr) ∧ (∀ s ∈ keysOf σ.strs, s < σ.nextAddr)

instance decidableListInv (σ : State) (as : List Nat) : Decidable (listInv σ as) := by
  unfold listInv
  infer_instance

instance decidableStateWF (σ : State) : Decidable (stateWF σ) := by
  unfold stateWF
  infer_instance

theorem hget_mem_keys {α : Type} {h : List (Nat × α)} {a : Nat} {v : α}
    (hh : hget h a = some v) : a ∈ keysOf h := by
  induction h with
  | nil => simp [hget] at hh
  | cons p t ih =>
    obtain ⟨b, w⟩ := p
    by_cases hba : b = a
    · subst hba; simp [keysOf]
    · simp [hget, hba] at hh
      simp [keysOf] at ih ⊢
      exact Or.inr (ih hh)

theorem hget_hset_ne {α : Type} (h : List (Nat × α)) (a b : Nat) (v : α)
    (hne : b ≠ a) : hget (hset h a v) b = hget h b := by
  induction h with
  | nil => simp [hset]
  | cons p t ih =>
    obtain ⟨c, w⟩ := p
    by_cases hca : c = a
    · subst hca
      simp [hset, hget, Ne.symm hne, ih]
    · simp [hset, hget, hca, ih]

theorem hget_hset_eq {α : Type} (h : List (Nat × α)) (a : Nat) (v : α)
    (hh : (hget h a).isSome = true) : hget (hset h a v) a = some v := by
  induction h with
  | nil => simp [hget] at hh
  | cons p t ih =>
    obtain ⟨c, w⟩ := p
    by_cases hca : c = a
    · subst hca; simp [hset, hget]
    · simp [hset, hget, hca] at hh ⊢
      exact ih hh

theorem hget_hdel_eq {α : Type} (h : List (Nat × α)) (a : Nat) :
    hget (hdel h a) a = none := by
  induction h with
  | nil => simp [hdel, hget]
  | cons p t ih =>
    obtain ⟨c, w⟩ := p
    by_cases hca : c = a
    · subst hca; simp [hdel, ih]
    · simp [hdel, hget, hca, ih]

theorem hget_hdel_ne {α : Type} (h : List (Nat × α)) (a b : Nat) (hne : b ≠ a) :
    hget (hdel h a) b = hget h b := by
  induction h with
  | nil => simp [hdel]
  | cons p t ih =>
    obtain ⟨c, w⟩ := p
    by_cases hca : c = a
    · subst hca; simp [hdel, hget, Ne.symm hne, ih]
    · simp [hdel, hget, hca, ih]

theorem keysOf_cons {α : Type} (c : Nat) (w : α) (t : List (Nat × α)) :
    keysOf ((c, w) :: t) = c :: keysOf t := rfl

theorem hset_not_mem {α : Type} (h : List (Nat × α)) (a : Nat) (v : α)
    (ha : ¬ a ∈ keysOf h) : hset h a v = h := by
  induction h with
  | nil => simp [hset]
  | cons p t ih =>
    obtain ⟨c, w⟩ := p
    rw [keysOf_cons, List.mem_cons] at ha
    push_neg at ha
    have hca : ¬ c = a := fun hc => ha.1 hc.symm
    rw [hset, if_neg hca, ih ha.2]

theorem hget_cons_ne {α : Type} (h : List (Nat × α)) (a b : Nat) (v : α)
    (hne : b ≠ a) : hget ((a, v) :: h) b = hget h b := by
  simp [hget, Ne.symm hne]

theorem hget_cons_eq {α : Type} (h : List (Nat × α)) (a : Nat) (v : α) :
    hget ((a, v) :: h) a = some v := by
  simp [hget]

theorem frontOr_append (l r : List Nat) (q : Option Nat) :
    frontOr (l ++ r) q = frontOr l (frontOr r q) := by
  cases l <;> simp [frontOr]

theorem backOr_cons (a : Nat) (l : List Nat) (p : Option Nat) :
    backOr (a :: l) p = backOr l (some a) := rfl

theorem backOr_append (l r : List Nat) (p : Option Nat) :
    backOr (l ++ r) p = backOr r (backOr l p) := by
  induction l generalizing p with
  | nil => simp [backOr]
  | cons a l ih => simp [backOr, ih]

theorem backOr_ne_nil (l : List Nat) (hl : l ≠ []) (p p2 : Option Nat) :
    backOr l p = backOr l p2 := by
  cases l with
  | nil => exact absurd rfl hl
  | cons a l => rfl

theorem segb_cons_iff (h : List (Nat × Node)) (p q : Option Nat) (a : Nat)
    (l : List Nat) :
    segb h p (a :: l) q = true ↔
      ∃ n, hget h a = some n ∧ n.prev = p ∧ n.next = frontOr l q ∧
        segb h (some a) l q = true := by
  cases hh : hget h a with
  | none => simp [segb, hh]
  | some n =>
    simp [segb, hh, Bool.and_eq_true, decide_eq_true_iff, and_assoc]

theorem segb_append (h : List (Nat × Node)) (p q : Option Nat) (l r : List Nat) :
    segb h p (l ++ r) q = (segb h p l (frontOr r q) && segb h (backOr l p) r q) := by
  induction l generalizing p with
  | nil => simp [segb, backOr]
  | cons a l ih =>
    cases hh : hget h a with
    | none => simp [segb, hh]
    | some n =>
      simp [segb, hh, frontOr_append, backOr_cons, ih, Bool.and_assoc]

theorem segb_congr (h h2 : List (Nat × Node)) (p q : Option Nat) (l : List Nat)
    (hag : ∀ a ∈ l, hget h2 a = hget h a) :
    segb h2 p l q = segb h p l q := by
  induction l generalizing p with
  | nil => rfl
  | cons a l ih =>
    have ha : hget h2 a = hget h a := hag a (List.mem_cons_self a l)
    simp only [segb, ha]
    cases hget h a with
    | none => rfl
    | some n => rw [ih (some a) (fun b hb => hag b (List.mem_cons_of_mem a hb))]

theorem segb_isSome (h : List (Nat × Node)) (p q : Option Nat) (l : List Nat)
    (hs : segb h p l q = true) : ∀ a ∈ l, (hget h a).isSome = true := by
  induction l generalizing p with
  | nil => intro a ha; simp at ha
  | cons b l ih =>
    rw [segb_cons_iff] at hs
    obtain ⟨n, hn, _, _, hrest⟩ := hs
    intro a ha
    rcases List.mem_cons.mp ha with rfl | ha
    · simp [hn]
    · exact ih (some b) hrest a ha

theorem nodup_length_le (as ks : List Nat) (hn : as.Nodup)
    (hs : ∀ a ∈ as, a ∈ ks) : as.length ≤ ks.length := by
  have h1 : as.toFinset.card = as.length := List.toFinset_card_of_nodup hn
  have h2 : as.toFinset ⊆ ks.toFinset := by
    intro a ha
    rw [List.mem_toFinset] at ha ⊢
    exact hs a ha
  calc as.length = as.toFinset.card := h1.symm
    _ ≤ ks.toFinset.card := Finset.card_le_card h2
    _ ≤ ks.length := ks.toFinset_card_le

theorem nodup_mid_facts (s t : List Nat) (x : Nat) (hn : (s ++ x :: t).Nodup) :
    ¬ x ∈ s ∧ ¬ x ∈ t ∧ (s ++ t).Nodup := by
  rw [List.nodup_middle, List.nodup_cons, List.mem_append] at hn
  push_neg at hn
  exact ⟨hn.1.1, hn.1.2, hn.2⟩

theorem strOf_congr (σ2 σ : State) (hstrs : σ2.strs = σ.strs)
    (hdata : ∀ a, (hget σ2.nodes a).map Node.data = (hget σ.nodes a).map Node.data) :
    ∀ a, strOf σ2 a = strOf σ a := by
  intro a
  have hd := hdata a
  unfold strOf
  cases h2 : hget σ2.nodes a with
  | none => cases h1 : hget σ.nodes a with
    | none => rfl
    | some n1 => rw [h2, h1] at hd; simp at hd
  | some n2 => cases h1 : hget σ.nodes a with
    | none => rw [h2, h1] at hd; simp at hd
    | some n1 =>
      rw [h2, h1] at hd
      simp at hd
      simp only [hstrs, hd]

theorem dataOf_congr (σ2 σ : State)
    (hdata : ∀ a, (hget σ2.nodes a).map Node.data = (hget σ.nodes a).map Node.data) :
    ∀ a, dataOf σ2 a = dataOf σ a := by
  intro a
  have hd := hdata a
  unfold dataOf
  cases h2 : hget σ2.nodes a with
  | none => cases h1 : hget σ.nodes a with
    | none => rfl
    | some n1 => rw [h2, h1] at hd; simp at hd
  | some n2 => cases h1 : hget σ.nodes a with
    | none => rw [h2, h1] at hd; simp at hd
    | some n1 =>
      rw [h2, h1] at hd
      simp at hd
      exact hd

theorem isSome_congr_of_data {o2 o1 : Option Node}
    (hd : o2.map Node.data = o1.map Node.data) : o2.isSome = o1.isSome := by
  cases o2 <;> cases o1 <;> simp at hd ⊢

/-- Full correctness of a successful `insert_after` on a member `x` of a list
satisfying the representation invariant, splicing a fresh allocated node `y`
(with valid, non-shared string storage) immediately after `x`. -/
theorem insert_after_spec (σ : State) (s t : List Nat) (x y : Nat) (w : Node)
    (hinv : listInv σ (s ++ x :: t))
    (hy : hget σ.nodes y = some w)
    (hyn : ¬ y ∈ s ++ x :: t)
    (hys : (strOf σ y).isSome = true)
    (hyd : ¬ dataOf σ y ∈ (s ++ x :: t).map (dataOf σ)) :
    ∃ σ2, insert_after σ true (some x) (some y) = some (0, σ2) ∧
      listInv σ2 (s ++ x :: y :: t) ∧
      σ2.lst.head = σ.lst.head ∧
      (t = [] → σ2.lst.last = some y) ∧
      (t ≠ [] → σ2.lst.last = σ.lst.last) ∧
      σ2.strs = σ.strs ∧ σ2.nextAddr = σ.nextAddr ∧ σ2.allocPlan = σ.allocPlan ∧
      (∀ a, strOf σ2 a = strOf σ a) ∧
      (∀ a, dataOf σ2 a = dataOf σ a) ∧
      (∀ a, (hget σ2.nodes a).isSome = (hget σ.nodes a).isSome) := by
  obtain ⟨hhead, hlast, hnodup, hseg, hstrs, hdnd⟩ := hinv
  obtain ⟨hxs, hxt, hst⟩ := nodup_mid_facts s t x hnodup
  rw [segb_append, Bool.and_eq_true] at hseg
  obtain ⟨hsegs, hsegxt⟩ := hseg
  rw [segb_cons_iff] at hsegxt
  obtain ⟨n, hn, hnp, hnn, hsegt⟩ := hsegxt
  have hys2 : ¬ y ∈ s := fun h => hyn (List.mem_append_left _ h)
  have hyx : ¬ y = x := fun h => hyn (by
    rw [h]; exact List.mem_append_right _ (List.mem_cons_self x t))
  have hyt : ¬ y ∈ t := fun h =>
    hyn (List.mem_append_right _ (List.mem_cons_of_mem x h))
  have hSome_y : (hget σ.nodes y).isSome = true := by simp [hy]
  have e1 : setPrev σ.nodes y (some x) =
      some (hset σ.nodes y { w with prev := some x }) := by
    simp [setPrev, hy]
  have hg1x : hget (hset σ.nodes y { w with prev := some x }) x = some n := by
    rw [hget_hset_ne σ.nodes y x _ (fun hc => hyx hc.symm), hn]
  have hg1y : hget (hset σ.nodes y { w with prev := some x }) y =
      some { w with prev := some x } := hget_hset_eq σ.nodes y _ hSome_y
  cases t with
  | nil =>
    have hnn0 : n.next = none := hnn
    have e2 : setNext (hset σ.nodes y { w with prev := some x }) y none =
        some (hset (hset σ.nodes y { w with prev := some x }) y
          ⟨some x, none, w.data⟩) := by
      simp [setNext, hg1y]
    have hg2x : hget (hset (hset σ.nodes y { w with prev := some x }) y
        (⟨some x, none, w.data⟩ : Node)) x = some n := by
      rw [hget_hset_ne _ _ _ _ (fun hc => hyx hc.symm), hg1x]
    have e3 : setNext (hset (hset σ.nodes y { w with prev := some x }) y
        (⟨some x, none, w.data⟩ : Node)) x (some y) =
        some (hset (hset (hset σ.nodes y { w with prev := some x }) y
          (⟨some x, none, w.data⟩ : Node)) x { n with next := some y }) := by
      simp [setNext, hg2x]
    set h3 := hset (hset (hset σ.nodes y { w with prev := some x }) y
      (⟨some x, none, w.data⟩ : Node)) x { n with next := some y } with hh3
    have hg3x : hget h3 x = some { n with next := some y } := by
      rw [hh3]; exact hget_hset_eq _ _ _ (by simp [hg2x])
    have hg3y : hget h3 y = some ⟨some x, none, w.data⟩ := by
      rw [hh3, hget_hset_ne _ _ _ _ hyx]
      exact hget_hset_eq _ _ _ (by simp [hg1y])
    have hg3other : ∀ a, ¬ a = x → ¬ a = y → hget h3 a = hget σ.nodes a := by
      intro a hax hay
      rw [hh3, hget_hset_ne _ _ _ _ hax, hget_hset_ne _ _ _ _ hay,
        hget_hset_ne _ _ _ _ hay]
    have hdata : ∀ a, (hget h3 a).map Node.data =
        (hget σ.nodes a).map Node.data := by
      intro a
      by_cases hax : a = x
      · subst hax; rw [hg3x, hn]; rfl
      · by_cases hay : a = y
        · subst hay; rw [hg3y, hy]; rfl
        · rw [hg3other a hax hay]
    refine ⟨{ σ with nodes := h3, lst := { σ.lst with last := some y } }, ?_,
      ⟨?_, ?_, ?_, ?_, ?_, ?_⟩, rfl, fun _ => rfl, fun hc => absurd rfl hc,
      rfl, rfl, rfl, strOf_congr { σ with nodes := h3, lst := { σ.lst with last := some y } } σ rfl hdata,
      dataOf_congr { σ with nodes := h3, lst := { σ.lst with last := some y } } σ hdata,
      fun a => isSome_congr_of_data (hdata a)⟩
    · simp only [insert_after, e1, Option.bind_eq_bind, Option.some_bind,
        hg1x, hnn0, e2, e3]
    · show σ.lst.head = frontOr (s ++ x :: y :: []) none
      rw [hhead, frontOr_append, frontOr_append]
      rfl
    · show some y = backOr (s ++ x :: y :: []) none
      rw [backOr_append]
      rfl
    · show (s ++ x :: y :: ([] : List Nat)).Nodup
      have hrw : s ++ x :: y :: ([] : List Nat) = (s ++ [x]) ++ y :: [] := by simp
      rw [hrw, List.nodup_middle, List.nodup_cons]
      constructor
      · simpa using hyn
      · simpa using hnodup
    · show segb h3 none (s ++ x :: y :: []) none = true
      rw [segb_append, Bool.and_eq_true]
      constructor
      · have hcg : segb h3 none s (frontOr (x :: y :: []) none) =
            segb σ.nodes none s (frontOr (x :: y :: []) none) :=
          segb_congr σ.nodes h3 none _ s (fun a ha =>
            hg3other a (fun hc => hxs (hc ▸ ha)) (fun hc => hys2 (hc ▸ ha)))
        rw [hcg]; exact hsegs
      · rw [segb_cons_iff]
        refine ⟨{ n with next := some y }, hg3x, hnp, rfl, ?_⟩
        rw [segb_cons_iff]
        exact ⟨⟨some x, none, w.data⟩, hg3y, rfl, rfl, rfl⟩
    · show ∀ a ∈ s ++ x :: y :: ([] : List Nat),
        (strOf { σ with nodes := h3, lst := { σ.lst with last := some y } } a).isSome = true
      intro a ha
      rw [strOf_congr { σ with nodes := h3, lst := { σ.lst with last := some y } } σ rfl hdata a]
      rcases (by simpa using ha : a ∈ s ∨ a = x ∨ a = y) with h | h | h
      · exact hstrs a (by simp [h])
      · exact hstrs a (by simp [h])
      · subst h; exact hys
    · show ((s ++ x :: y :: []).map
        (dataOf { σ with nodes := h3, lst := { σ.lst with last := some y } })).Nodup
      have hmap : (s ++ x :: y :: []).map
          (dataOf { σ with nodes := h3, lst := { σ.lst with last := some y } }) =
          (s ++ x :: y :: []).map (dataOf σ) :=
        List.map_congr_left (fun a _ => dataOf_congr { σ with nodes := h3, lst := { σ.lst with last := some y } } σ hdata a)
      rw [hmap]
      have hrw : (s ++ x :: y :: []).map (dataOf σ) =
          (s.map (dataOf σ) ++ [dataOf σ x]) ++ dataOf σ y :: [] := by simp
      rw [hrw, List.nodup_middle, List.nodup_cons]
      constructor
      · simpa using hyd
      · simpa using hdnd
  | cons b t2 =>
    have hnn0 : n.next = some b := hnn
    rw [segb_cons_iff] at hsegt
    obtain ⟨m, hm, hmp, hmn, hsegt2⟩ := hsegt
    obtain ⟨hxb2, hbt2, _⟩ := nodup_mid_facts (s ++ [x]) t2 b (by simpa using hnodup)
    have hbx : ¬ b = x := by
      intro hc; exact hxt (hc ▸ List.mem_cons_self b t2)
    have hby : ¬ b = y := by
      intro hc; exact hyt (hc ▸ List.mem_cons_self b t2)
    have e2 : setNext (hset σ.nodes y { w with prev := some x }) y (some b) =
        some (hset (hset σ.nodes y { w with prev := some x }) y
          ⟨some x, some b, w.data⟩) := by
      simp [setNext, hg1y]
    have hg2b : hget (hset (hset σ.nodes y { w with prev := some x }) y
        (⟨some x, some b, w.data⟩ : Node)) b = some m := by
      rw [hget_hset_ne _ _ _ _ hby, hget_hset_ne _ _ _ _ hby, hm]
    have e3 : setPrev (hset (hset σ.nodes y { w with prev := some x }) y
        (⟨some x, some b, w.data⟩ : Node)) b (some y) =
        some (hset (hset (hset σ.nodes y { w with prev := some x }) y
          (⟨some x, some b, w.data⟩ : Node)) b { m with prev := some y }) := by
      simp [setPrev, hg2b]
    have hg3x : hget (hset (hset (hset σ.nodes y { w with prev := some x }) y
        (⟨some x, some b, w.data⟩ : Node)) b { m with prev := some y }) x
        = some n := by
      rw [hget_hset_ne _ _ _ _ (fun hc => hbx hc.symm),
        hget_hset_ne _ _ _ _ (fun hc => hyx hc.symm), hg1x]
    have e4 : setNext (hset (hset (hset σ.nodes y { w with prev := some x }) y
        (⟨some x, some b, w.data⟩ : Node)) b { m with prev := some y }) x
        (some y) =
        some (hset (hset (hset (hset σ.nodes y { w with prev := some x }) y
          (⟨some x, some b, w.data⟩ : Node)) b { m with prev := some y }) x
          { n with next := some y }) := by
      simp [setNext, hg3x]
    set h4 := hset (hset (hset (hset σ.nodes y { w with prev := some x }) y
      (⟨some x, some b, w.data⟩ : Node)) b { m with prev := some y }) x
      { n with next := some y } with hh4
    have hg4x : hget h4 x = some { n with next := some y } := by
      rw [hh4]; exact hget_hset_eq _ _ _ (by simp [hg3x])
    have hg4y : hget h4 y = some ⟨some x, some b, w.data⟩ := by
      rw [hh4, hget_hset_ne _ _ _ _ hyx, hget_hset_ne _ _ _ _ (fun hc => hby hc.symm)]
      exact hget_hset_eq _ _ _ (by simp [hg1y])
    have hg4b : hget h4 b = some { m with prev := some y } := by
      rw [hh4, hget_hset_ne _ _ _ _ hbx]
      exact hget_hset_eq _ _ _ (by simp [hg2b])
    have hg4other : ∀ a, ¬ a = x → ¬ a = y → ¬ a = b → hget h4 a = hget σ.nodes a := by
      intro a hax hay hab
      rw [hh4, hget_hset_ne _ _ _ _ hax, hget_hset_ne _ _ _ _ hab,
        hget_hset_ne _ _ _ _ hay, hget_hset_ne _ _ _ _ hay]
    have hdata : ∀ a, (hget h4 a).map Node.data =
        (hget σ.nodes a).map Node.data := by
      intro a
      by_cases hax : a = x
      · subst hax; rw [hg4x, hn]; rfl
      · by_cases hay : a = y
        · subst hay; rw [hg4y, hy]; rfl
        · by_cases hab : a = b
          · subst hab; rw [hg4b, hm]; rfl
          · rw [hg4other a hax hay hab]
    refine ⟨{ σ with nodes := h4 }, ?_,
      ⟨?_, ?_, ?_, ?_, ?_, ?_⟩, rfl, fun hc => by simp at hc, fun _ => rfl,
      rfl, rfl, rfl, strOf_congr { σ with nodes := h4 } σ rfl hdata,
      dataOf_congr { σ with nodes := h4 } σ hdata,
      fun a => isSome_congr_of_data (hdata a)⟩
    · simp only [insert_after, e1, Option.bind_eq_bind, Option.some_bind,
        hg1x, hnn0, e2, e3, e4]
    · show σ.lst.head = frontOr (s ++ x :: y :: b :: t2) none
      rw [hhead, frontOr_append, frontOr_append]
      rfl
    · show σ.lst.last = backOr (s ++ x :: y :: b :: t2) none
      have hr1 : s ++ x :: b :: t2 = (s ++ [x]) ++ b :: t2 := by simp
      have hr2 : s ++ x :: y :: b :: t2 = (s ++ [x, y]) ++ b :: t2 := by simp
      have hL : backOr (s ++ x :: b :: t2) none =
          backOr (b :: t2) (backOr (s ++ [x]) none) := by
        rw [hr1, backOr_append]
      have hR : backOr (s ++ x :: y :: b :: t2) none =
          backOr (b :: t2) (backOr (s ++ [x, y]) none) := by
        rw [hr2, backOr_append]
      rw [hlast, hL, hR]
      exact backOr_ne_nil (b :: t2) (by simp) _ _
    · show (s ++ x :: y :: b :: t2).Nodup
      have hrw : s ++ x :: y :: b :: t2 = (s ++ [x]) ++ y :: b :: t2 := by simp
      rw [hrw, List.nodup_middle, List.nodup_cons]
      constructor
      · simpa using hyn
      · simpa using hnodup
    · show segb h4 none (s ++ x :: y :: b :: t2) none = true
      rw [segb_append, Bool.and_eq_true]
      constructor
      · have hcg : segb h4 none s (frontOr (x :: y :: b :: t2) none) =
            segb σ.nodes none s (frontOr (x :: y :: b :: t2) none) :=
          segb_congr σ.nodes h4 none _ s (fun a ha =>
            hg4other a (fun hc => hxs (hc ▸ ha)) (fun hc => hys2 (hc ▸ ha))
              (fun hc => hxb2 (by simp [hc ▸ ha])))
        rw [hcg]; exact hsegs
      · rw [segb_cons_iff]
        refine ⟨{ n with next := some y }, hg4x, hnp, rfl, ?_⟩
        rw [segb_cons_iff]
        refine ⟨⟨some x, some b, w.data⟩, hg4y, rfl, rfl, ?_⟩
        rw [segb_cons_iff]
        refine ⟨{ m with prev := some y }, hg4b, rfl, hmn, ?_⟩
        have hcg2 : segb h4 (some b) t2 none = segb σ.nodes (some b) t2 none :=
          segb_congr σ.nodes h4 (some b) none t2 (fun a ha =>
            hg4other a (fun hc => hxt (hc ▸ (List.mem_cons_of_mem b ha)))
              (fun hc => hyt (hc ▸ (List.mem_cons_of_mem b ha)))
              (fun hc => hbt2 (hc ▸ ha)))
        rw [hcg2]; exact hsegt2
    · show ∀ a ∈ s ++ x :: y :: b :: t2,
        (strOf { σ with nodes := h4 } a).isSome = true
      intro a ha
      rw [strOf_congr { σ with nodes := h4 } σ rfl hdata a]
      rcases (by simpa using ha : a ∈ s ∨ a = x ∨ a = y ∨ a = b ∨ a ∈ t2)
        with h | h | h | h | h
      · exact hstrs a (by simp [h])
      · exact hstrs a (by simp [h])
      · subst h; exact hys
      · exact hstrs a (by simp [h])
      · exact hstrs a (by simp [h])
    · show ((s ++ x :: y :: b :: t2).map (dataOf { σ with nodes := h4 })).Nodup
      have hmap : (s ++ x :: y :: b :: t2).map (dataOf { σ with nodes := h4 }) =
          (s ++ x :: y :: b :: t2).map (dataOf σ) :=
        List.map_congr_left (fun a _ => dataOf_congr { σ with nodes := h4 } σ hdata a)
      rw [hmap]
      have hrw : (s ++ x :: y :: b :: t2).map (dataOf σ) =
          (s.map (dataOf σ) ++ [dataOf σ x]) ++
            dataOf σ y :: (b :: t2).map (dataOf σ) := by simp
      rw [hrw, List.nodup_middle, List.nodup_cons]
      constructor
      · simpa using hyd
      · simpa using hdnd

theorem frontOr_ne_nil (l : List Nat) (hl : l ≠ []) (q q2 : Option Nat) :
    frontOr l q = frontOr l q2 := by
  cases l with
  | nil => exact absurd rfl hl
  | cons a l => rfl

theorem backOr_mem (l : List Nat) (p : Option Nat) (hl : l ≠ []) :
    ∃ a ∈ l, backOr l p = some a := by
  induction l generalizing p with
  | nil => exact absurd rfl hl
  | cons a l ih =>
    cases l with
    | nil => exact ⟨a, List.mem_cons_self a [], rfl⟩
    | cons b l2 =>
      obtain ⟨c, hc, hbc⟩ := ih (some a) (by simp)
      exact ⟨c, List.mem_cons_of_mem a hc, hbc⟩

/-- The node record of a member, read off the representation invariant. -/
theorem listInv_node (σ : State) (s t : List Nat) (x : Nat)
    (hinv : listInv σ (s ++ x :: t)) :
    ∃ n, hget σ.nodes x = some n ∧ n.prev = backOr s none ∧
      n.next = frontOr t none := by
  obtain ⟨_, _, _, hseg, _, _⟩ := hinv
  rw [segb_append, Bool.and_eq_true] at hseg
  obtain ⟨_, hseg2⟩ := hseg
  rw [segb_cons_iff] at hseg2
  obtain ⟨n, hn, hp, hx, _⟩ := hseg2
  exact ⟨n, hn, hp, hx⟩

/-- Under the invariant, `x` is the tail node exactly when the suffix after
it is empty. -/
theorem last_eq_iff (σ : State) (s t : List Nat) (x : Nat)
    (hinv : listInv σ (s ++ x :: t)) : σ.lst.last = some x ↔ t = [] := by
  obtain ⟨_, hlast, hnodup, _, _, _⟩ := hinv
  obtain ⟨_, hxt, _⟩ := nodup_mid_facts s t x hnodup
  constructor
  · intro h
    by_contra ht
    obtain ⟨c, hc, hbc⟩ := backOr_mem t (some x) ht
    rw [hlast] at h
    rw [backOr_append, backOr_cons] at h
    rw [hbc] at h
    exact hxt ((Option.some_inj.mp h) ▸ hc)
  · intro h
    subst h
    rw [hlast, backOr_append]
    rfl

/-- Under the invariant, `x` is the head node exactly when the prefix before
it is empty. -/
theorem head_eq_iff (σ : State) (s t : List Nat) (x : Nat)
    (hinv : listInv σ (s ++ x :: t)) : σ.lst.head = some x ↔ s = [] := by
  obtain ⟨hhead, _, hnodup, _, _, _⟩ := hinv
  obtain ⟨hxs, _, _⟩ := nodup_mid_facts s t x hnodup
  constructor
  · intro h
    cases s with
    | nil => rfl
    | cons a s2 =>
      rw [hhead] at h
      simp [frontOr] at h
      exact absurd (h ▸ List.mem_cons_self a s2) hxs
  · intro h
    subst h
    rw [hhead]
    rfl

/-- A successful `insert_before` at a member `x` that has a predecessor never
touches the caller's `List` struct (neither `head` nor `last`). -/
theorem insert_before_frame (σ : State) (s t : List Nat) (x y : Nat) (w : Node)
    (hinv : listInv σ (s ++ x :: t))
    (hy : hget σ.nodes y = some w)
    (hyn : ¬ y ∈ s ++ x :: t)
    (hs : s ≠ []) :
    ∃ σ2, insert_before σ true (some x) (some y) = some (0, σ2) ∧
      σ2.lst = σ.lst := by
  obtain ⟨hhead, hlast, hnodup, hseg, hstrs, hdnd⟩ := hinv
  rw [segb_append, Bool.and_eq_true] at hseg
  obtain ⟨hsegs, hsegxt⟩ := hseg
  rw [segb_cons_iff] at hsegxt
  obtain ⟨n, hn, hnp, hnn, hsegt⟩ := hsegxt
  obtain ⟨hxs, hxt, hst⟩ := nodup_mid_facts s t x hnodup
  have hyx : ¬ y = x := fun h => hyn (by
    rw [h]; exact List.mem_append_right _ (List.mem_cons_self x t))
  have hys2 : ¬ y ∈ s := fun h => hyn (List.mem_append_left _ h)
  rcases List.eq_nil_or_concat' s with rfl | ⟨s2, p, rfl⟩
  · exact absurd rfl hs
  · rw [segb_append, Bool.and_eq_true] at hsegs
    obtain ⟨hsegs2, hsegp⟩ := hsegs
    rw [segb_cons_iff] at hsegp
    obtain ⟨np, hnp2, hnpp, hnpn, _⟩ := hsegp
    have hpmem : p ∈ s2 ++ [p] := List.mem_append_right _ (List.mem_cons_self p [])
    have hpx : ¬ p = x := fun hc => hxs (hc ▸ hpmem)
    have hpy : ¬ p = y := fun hc => hys2 (hc ▸ hpmem)
    have hnp0 : n.prev = some p := by
      rw [hnp, backOr_append]
      rfl
    have e1 : setNext σ.nodes y (some x) =
        some (hset σ.nodes y { w with next := some x }) := by
      simp [setNext, hy]
    have hg1x : hget (hset σ.nodes y { w with next := some x }) x = some n := by
      rw [hget_hset_ne σ.nodes y x _ (fun hc => hyx hc.symm), hn]
    have hg1y : hget (hset σ.nodes y { w with next := some x }) y =
        some { w with next := some x } := hget_hset_eq σ.nodes y _ (by simp [hy])
    have e2 : setPrev (hset σ.nodes y { w with next := some x }) y (some p) =
        some (hset (hset σ.nodes y { w with next := some x }) y
          ⟨some p, some x, w.data⟩) := by
      simp [setPrev, hg1y]
    have hg2p : hget (hset (hset σ.nodes y { w with next := some x }) y
        (⟨some p, some x, w.data⟩ : Node)) p = some np := by
      rw [hget_hset_ne _ _ _ _ hpy, hget_hset_ne _ _ _ _ hpy, hnp2]
    have e3 : setNext (hset (hset σ.nodes y { w with next := some x }) y
        (⟨some p, some x, w.data⟩ : Node)) p (some y) =
        some (hset (hset (hset σ.nodes y { w with next := some x }) y
          (⟨some p, some x, w.data⟩ : Node)) p { np with next := some y }) := by
      simp [setNext, hg2p]
    have hg3x : hget (hset (hset (hset σ.nodes y { w with next := some x }) y
        (⟨some p, some x, w.data⟩ : Node)) p { np with next := some y }) x
        = some n := by
      rw [hget_hset_ne _ _ _ _ (fun hc => hpx hc.symm),
        hget_hset_ne _ _ _ _ (fun hc => hyx hc.symm), hg1x]
    have e4 : setPrev (hset (hset (hset σ.nodes y { w with next := some x }) y
        (⟨some p, some x, w.data⟩ : Node)) p { np with next := some y }) x
        (some y) =
        some (hset (hset (hset (hset σ.nodes y { w with next := some x }) y
          (⟨some p, some x, w.data⟩ : Node)) p { np with next := some y }) x
          { n with prev := some y }) := by
      simp [setPrev, hg3x]
    refine ⟨{ σ with nodes := hset (hset (hset (hset σ.nodes y
        { w with next := some x }) y (⟨some p, some x, w.data⟩ : Node)) p
        { np with next := some y }) x { n with prev := some y } }, ?_, rfl⟩
    simp only [insert_before, e1, Option.bind_eq_bind, Option.some_bind, hg1x,
      hnp0, e2, e3, e4]

theorem dataOf_pt {σ3 σ : State} {a : Nat}
    (hd : (hget σ3.nodes a).map Node.data = (hget σ.nodes a).map Node.data) :
    dataOf σ3 a = dataOf σ a := by
  unfold dataOf
  cases h3 : hget σ3.nodes a with
  | none =>
    cases h1 : hget σ.nodes a with
    | none => rfl
    | some n1 => rw [h3, h1] at hd; simp at hd
  | some n3 =>
    cases h1 : hget σ.nodes a with
    | none => rw [h3, h1] at hd; simp at hd
    | some n1 => rw [h3, h1] at hd; simpa using hd

theorem strOf_del_congr (σ3 σ : State) (d : Nat) (a : Nat)
    (hstrs3 : σ3.strs = hdel σ.strs d)
    (hd : (hget σ3.nodes a).map Node.data = (hget σ.nodes a).map Node.data)
    (hne : dataOf σ a ≠ d) :
    strOf σ3 a = strOf σ a := by
  unfold strOf
  cases h3 : hget σ3.nodes a with
  | none =>
    cases h1 : hget σ.nodes a with
    | none => rfl
    | some n1 => rw [h3, h1] at hd; simp at hd
  | some n3 =>
    cases h1 : hget σ.nodes a with
    | none => rw [h3, h1] at hd; simp at hd
    | some n1 =>
      rw [h3, h1] at hd
      simp at hd
      have hnd : n1.data ≠ d := by
        unfold dataOf at hne; rw [h1] at hne; exact hne
      simp only [hstrs3, hd]
      exact hget_hdel_ne σ.strs d n1.data hnd

theorem mem_lift (s t : List Nat) (x a : Nat) (ha : a ∈ s ++ t) :
    a ∈ s ++ x :: t := by
  rcases List.mem_append.mp ha with h | h
  · exact List.mem_append_left _ h
  · exact List.mem_append_right _ (List.mem_cons_of_mem x h)

/-- Full correctness of `remove_node` on a member `x` of a list satisfying the
representation invariant: the call succeeds, the remaining members satisfy the
invariant again, and both the node and its owned string copy are freed. -/
theorem remove_node_spec (σ : State) (s t : List Nat) (x : Nat)
    (hinv : listInv σ (s ++ x :: t)) :
    ∃ σ2, remove_node σ true (some x) = some (0, σ2) ∧
      listInv σ2 (s ++ t) ∧
      hget σ2.nodes x = none ∧
      hget σ2.strs (dataOf σ x) = none ∧
      σ2.nextAddr = σ.nextAddr ∧ σ2.allocPlan = σ.allocPlan := by
  obtain ⟨hhead, hlast, hnodup, hseg, hstrs, hdnd⟩ := hinv
  rw [segb_append, Bool.and_eq_true] at hseg
  obtain ⟨hsegs, hsegxt⟩ := hseg
  rw [segb_cons_iff] at hsegxt
  obtain ⟨n, hn, hnp, hnn, hsegt⟩ := hsegxt
  obtain ⟨hxs, hxt, hst⟩ := nodup_mid_facts s t x hnodup
  obtain ⟨snodup, tnodup, sdisj⟩ := List.nodup_append.mp hst
  have hfx : dataOf σ x = n.data := by unfold dataOf; rw [hn]
  have hdxmem : ¬ dataOf σ x ∈ (s ++ t).map (dataOf σ) := by
    have hr : (s ++ x :: t).map (dataOf σ) =
        s.map (dataOf σ) ++ dataOf σ x :: t.map (dataOf σ) := by simp
    rw [hr, List.nodup_middle, List.nodup_cons] at hdnd
    intro hc
    exact hdnd.1 (by simpa using hc)
  have hdnt : ((s ++ t).map (dataOf σ)).Nodup := by
    have hr : (s ++ x :: t).map (dataOf σ) =
        s.map (dataOf σ) ++ dataOf σ x :: t.map (dataOf σ) := by simp
    rw [hr, List.nodup_middle, List.nodup_cons] at hdnd
    simpa using hdnd.2
  have hdok : ∀ a ∈ s ++ t, dataOf σ a ≠ n.data := by
    intro a ha hc
    exact hdxmem (hfx ▸ hc ▸ List.mem_map_of_mem (dataOf σ) ha)
  have haxne : ∀ a ∈ s ++ t, ¬ a = x := by
    intro a ha hc
    subst hc
    rcases List.mem_append.mp ha with h | h
    · exact hxs h
    · exact hxt h
  rcases List.eq_nil_or_concat' s with rfl | ⟨s2, p, rfl⟩
  · -- x is the head node
    have hnp0 : n.prev = none := hnp
    cases t with
    | nil =>
      -- x is the sole node
      have hnn0 : n.next = none := hnn
      refine ⟨{ σ with nodes := hdel σ.nodes x,
                        strs := hdel σ.strs n.data,
                        lst := { head := none, last := none } },
        ?_, ?_, hget_hdel_eq σ.nodes x,
        by rw [hfx]; exact hget_hdel_eq σ.strs n.data, rfl, rfl⟩
      · simp only [remove_node, hn, Option.bind_eq_bind, Option.some_bind,
          hnp0, hnn0]
      · exact ⟨rfl, rfl, List.nodup_nil, rfl,
          by intro a ha; simp at ha, List.nodup_nil⟩
    | cons b t2 =>
      have hnn0 : n.next = some b := hnn
      rw [segb_cons_iff] at hsegt
      obtain ⟨m, hm, hmp, hmn, hsegt2⟩ := hsegt
      have hbmem : b ∈ ([] : List Nat) ++ b :: t2 := by simp
      have hbx : ¬ b = x := haxne b hbmem
      have hbt2 : ¬ b ∈ t2 := (List.nodup_cons.mp tnodup).1
      have e2 : setPrev σ.nodes b none =
          some (hset σ.nodes b { m with prev := none }) := by
        simp [setPrev, hm]
      have hgx2 : hget (hset σ.nodes b { m with prev := none }) x = some n := by
        rw [hget_hset_ne _ _ _ _ (fun hc => hbx hc.symm), hn]
      refine ⟨{ σ with nodes := hdel (hset σ.nodes b { m with prev := none }) x,
                        strs := hdel σ.strs n.data,
                        lst := { head := some b, last := σ.lst.last } },
        ?_, ?_,
        hget_hdel_eq _ x, by rw [hfx]; exact hget_hdel_eq σ.strs n.data, rfl, rfl⟩
      · simp only [remove_node, hn, Option.bind_eq_bind, Option.some_bind,
          hnp0, hnn0, e2, Option.map_some', hgx2]
      · have hgb3 : hget (hdel (hset σ.nodes b { m with prev := none }) x) b =
            some { m with prev := none } := by
          rw [hget_hdel_ne _ _ _ hbx, hget_hset_eq _ _ _ (by simp [hm])]
        have hother : ∀ a, ¬ a = x → ¬ a = b →
            hget (hdel (hset σ.nodes b { m with prev := none }) x) a =
            hget σ.nodes a := by
          intro a hax hab
          rw [hget_hdel_ne _ _ _ hax, hget_hset_ne _ _ _ _ hab]
        have hd3 : ∀ a, ¬ a = x →
            (hget (hdel (hset σ.nodes b { m with prev := none }) x) a).map Node.data
              = (hget σ.nodes a).map Node.data := by
          intro a hax
          by_cases hab : a = b
          · subst hab; rw [hgb3, hm]; rfl
          · rw [hother a hax hab]
        refine ⟨rfl, ?_, by simpa using tnodup, ?_, ?_, ?_⟩
        · show σ.lst.last = backOr ([] ++ b :: t2) none
          rw [hlast]
          exact backOr_ne_nil (b :: t2) (by simp) (some x) none
        · show segb _ none ([] ++ b :: t2) none = true
          rw [List.nil_append, segb_cons_iff]
          refine ⟨{ m with prev := none }, hgb3, rfl, hmn, ?_⟩
          have hcg : segb (hdel (hset σ.nodes b { m with prev := none }) x)
              (some b) t2 none = segb σ.nodes (some b) t2 none :=
            segb_congr σ.nodes _ (some b) none t2 (fun a ha =>
              hother a (fun hc => hxt (hc ▸ List.mem_cons_of_mem b ha))
                (fun hc => hbt2 (hc ▸ ha)))
          rw [hcg]; exact hsegt2
        · intro a ha
          have hamem : a ∈ ([] : List Nat) ++ b :: t2 := ha
          have hax : ¬ a = x := haxne a hamem
          rw [strOf_del_congr _ σ n.data a rfl (hd3 a hax) (hdok a hamem)]
          exact hstrs a (mem_lift _ _ x a hamem)
        · have hmapc : ∀ a ∈ ([] : List Nat) ++ b :: t2,
              dataOf { σ with
                nodes := hdel (hset σ.nodes b { m with prev := none }) x,
                strs := hdel σ.strs n.data,
                lst := { head := some b, last := σ.lst.last } } a = dataOf σ a := by
            intro a ha
            exact dataOf_pt (hd3 a (haxne a ha))
          rw [List.map_congr_left hmapc]
          exact hdnt
  · -- x has a predecessor p
    rw [segb_append, Bool.and_eq_true] at hsegs
    obtain ⟨hsegs2, hsegp⟩ := hsegs
    rw [segb_cons_iff] at hsegp
    obtain ⟨np, hnp2, hnpp, hnpn, _⟩ := hsegp
    have hpmem : p ∈ s2 ++ [p] := List.mem_append_right _ (List.mem_cons_self p [])
    have hpx : ¬ p = x := fun hc => hxs (hc ▸ hpmem)
    have hps2 : ¬ p ∈ s2 := by
      obtain ⟨h1, _, _⟩ := nodup_mid_facts s2 [] p (by simpa using snodup)
      exact h1
    have hnp0 : n.prev = some p := by
      rw [hnp, backOr_append]
      rfl
    cases t with
    | nil =>
      have hnn0 : n.next = none := hnn
      have e1 : setNext σ.nodes p none =
          some (hset σ.nodes p { np with next := none }) := by
        simp [setNext, hnp2]
      have hgx1 : hget (hset σ.nodes p { np with next := none }) x = some n := by
        rw [hget_hset_ne _ _ _ _ (fun hc => hpx hc.symm), hn]
      refine ⟨{ σ with nodes := hdel (hset σ.nodes p { np with next := none }) x,
                        strs := hdel σ.strs n.data,
                        lst := { head := σ.lst.head, last := some p } },
        ?_, ?_,
        hget_hdel_eq _ x, by rw [hfx]; exact hget_hdel_eq σ.strs n.data, rfl, rfl⟩
      · simp only [remove_node, hn, Option.bind_eq_bind, Option.some_bind,
          hnp0, hnn0, e1, Option.map_some', hgx1]
      · have hgp3 : hget (hdel (hset σ.nodes p { np with next := none }) x) p =
            some { np with next := none } := by
          rw [hget_hdel_ne _ _ _ hpx, hget_hset_eq _ _ _ (by simp [hnp2])]
        have hother : ∀ a, ¬ a = x → ¬ a = p →
            hget (hdel (hset σ.nodes p { np with next := none }) x) a =
            hget σ.nodes a := by
          intro a hax hap
          rw [hget_hdel_ne _ _ _ hax, hget_hset_ne _ _ _ _ hap]
        have hd3 : ∀ a, ¬ a = x →
            (hget (hdel (hset σ.nodes p { np with next := none }) x) a).map Node.data
              = (hget σ.nodes a).map Node.data := by
          intro a hax
          by_cases hap : a = p
          · subst hap; rw [hgp3, hnp2]; rfl
          · rw [hother a hax hap]
        refine ⟨?_, ?_, by simpa using snodup, ?_, ?_, ?_⟩
        · show σ.lst.head = frontOr (s2 ++ [p] ++ []) none
          rw [hhead, frontOr_append]
          have hr : s2 ++ [p] ++ ([] : List Nat) = s2 ++ [p] := by simp
          rw [hr]
          exact frontOr_ne_nil (s2 ++ [p]) (by simp) (frontOr (x :: []) none) none
        · show some p = backOr (s2 ++ [p] ++ []) none
          have hr : s2 ++ [p] ++ ([] : List Nat) = s2 ++ [p] := by simp
          rw [hr, backOr_append]
          rfl
        · show segb _ none (s2 ++ [p] ++ []) none = true
          have hr : s2 ++ [p] ++ ([] : List Nat) = s2 ++ [p] := by simp
          rw [hr, segb_append, Bool.and_eq_true]
          constructor
          · have hcg : segb (hdel (hset σ.nodes p { np with next := none }) x)
                none s2 (frontOr [p] none) = segb σ.nodes none s2 (frontOr [p] none) :=
              segb_congr σ.nodes _ none _ s2 (fun a ha =>
                hother a (fun hc => hxs (hc ▸ List.mem_append_left _ ha))
                  (fun hc => hps2 (hc ▸ ha)))
            rw [hcg]; exact hsegs2
          · rw [segb_cons_iff]
            exact ⟨{ np with next := none }, hgp3, hnpp, rfl, rfl⟩
        · intro a ha
          have hamem : a ∈ (s2 ++ [p]) ++ [] := ha
          have hamem2 : a ∈ (s2 ++ [p]) ++ ([] : List Nat) := hamem
          have hax : ¬ a = x := haxne a hamem2
          rw [strOf_del_congr _ σ n.data a rfl (hd3 a hax) (hdok a hamem2)]
          exact hstrs a (mem_lift _ _ x a hamem2)
        · have hmapc : ∀ a ∈ (s2 ++ [p]) ++ ([] : List Nat),
              dataOf { σ with
                nodes := hdel (hset σ.nodes p { np with next := none }) x,
                strs := hdel σ.strs n.data,
                lst := { head := σ.lst.head, last := some p } } a = dataOf σ a := by
            intro a ha
            exact dataOf_pt (hd3 a (haxne a ha))
          rw [List.map_congr_left hmapc]
          exact hdnt
    | cons b t2 =>
      have hnn0 : n.next = some b := hnn
      rw [segb_cons_iff] at hsegt
      obtain ⟨m, hm, hmp, hmn, hsegt2⟩ := hsegt
      have hbmem : b ∈ (s2 ++ [p]) ++ b :: t2 := by simp
      have hbt : b ∈ b :: t2 := List.mem_cons_self b t2
      have hbx : ¬ b = x := fun hc => hxt (hc ▸ hbt)
      have hbt2 : ¬ b ∈ t2 := (List.nodup_cons.mp tnodup).1
      have hbp : ¬ b = p := fun hc => (sdisj (hc ▸ hpmem)) hbt
      have e1 : setNext σ.nodes p (some b) =
          some (hset σ.nodes p { np with next := some b }) := by
        simp [setNext, hnp2]
      have hgx1 : hget (hset σ.nodes p { np with next := some b }) x = some n := by
        rw [hget_hset_ne _ _ _ _ (fun hc => hpx hc.symm), hn]
      have hgb1 : hget (hset σ.nodes p { np with next := some b }) b = some m := by
        rw [hget_hset_ne _ _ _ _ hbp, hm]
      have e2 : setPrev (hset σ.nodes p { np with next := some b }) b (some p) =
          some (hset (hset σ.nodes p { np with next := some b }) b
            { m with prev := some p }) := by
        simp [setPrev, hgb1]
      have hgx2 : hget (hset (hset σ.nodes p { np with next := some b }) b
          { m with prev := some p }) x = some n := by
        rw [hget_hset_ne _ _ _ _ (fun hc => hbx hc.symm), hgx1]
      refine ⟨{ σ with nodes := hdel (hset (hset σ.nodes p
                          { np with next := some b }) b
                          { m with prev := some p }) x,
                        strs := hdel σ.strs n.data },
        ?_, ?_,
        hget_hdel_eq _ x, by rw [hfx]; exact hget_hdel_eq σ.strs n.data, rfl, rfl⟩
      · simp only [remove_node, hn, Option.bind_eq_bind, Option.some_bind,
          hnp0, hnn0, e1, Option.map_some', hgx1, e2, hgx2]
      · have hgp3 : hget (hdel (hset (hset σ.nodes p { np with next := some b }) b
            { m with prev := some p }) x) p = some { np with next := some b } := by
          rw [hget_hdel_ne _ _ _ hpx,
            hget_hset_ne _ _ _ _ (fun hc => hbp hc.symm),
            hget_hset_eq _ _ _ (by simp [hnp2])]
        have hgb3 : hget (hdel (hset (hset σ.nodes p { np with next := some b }) b
            { m with prev := some p }) x) b = some { m with prev := some p } := by
          rw [hget_hdel_ne _ _ _ hbx, hget_hset_eq _ _ _ (by simp [hgb1])]
        have hother : ∀ a, ¬ a = x → ¬ a = p → ¬ a = b →
            hget (hdel (hset (hset σ.nodes p { np with next := some b }) b
              { m with prev := some p }) x) a = hget σ.nodes a := by
          intro a hax hap hab
          rw [hget_hdel_ne _ _ _ hax, hget_hset_ne _ _ _ _ hab,
            hget_hset_ne _ _ _ _ hap]
        have hd3 : ∀ a, ¬ a = x →
            (hget (hdel (hset (hset σ.nodes p { np with next := some b }) b
              { m with prev := some p }) x) a).map Node.data
              = (hget σ.nodes a).map Node.data := by
          intro a hax
          by_cases hap : a = p
          · subst hap; rw [hgp3, hnp2]; rfl
          · by_cases hab : a = b
            · subst hab; rw [hgb3, hm]; rfl
            · rw [hother a hax hap hab]
        refine ⟨?_, ?_, by exact hst, ?_, ?_, ?_⟩
        · show σ.lst.head = frontOr (s2 ++ [p] ++ b :: t2) none
          have hL2 : frontOr ((s2 ++ [p]) ++ x :: b :: t2) none =
              frontOr (s2 ++ [p]) (some x) := by
            rw [frontOr_append]
            rfl
          have hR2 : frontOr ((s2 ++ [p]) ++ b :: t2) none =
              frontOr (s2 ++ [p]) (some b) := by
            rw [frontOr_append]
            rfl
          rw [hhead, hL2, hR2]
          exact frontOr_ne_nil (s2 ++ [p]) (by simp) _ _
        · show σ.lst.last = backOr (s2 ++ [p] ++ b :: t2) none
          have hL : backOr ((s2 ++ [p]) ++ x :: b :: t2) none =
              backOr (b :: t2) (some x) := by
            rw [backOr_append]
            rfl
          have hR : backOr ((s2 ++ [p]) ++ b :: t2) none =
              backOr (b :: t2) (backOr (s2 ++ [p]) none) := by
            rw [backOr_append]
          rw [hlast, hL, hR]
          exact backOr_ne_nil (b :: t2) (by simp) _ _
        · show segb _ none (s2 ++ [p] ++ b :: t2) none = true
          have hlrw : s2 ++ [p] ++ b :: t2 = s2 ++ p :: b :: t2 := by simp
          rw [hlrw, segb_append, Bool.and_eq_true]
          constructor
          · have hcg : segb (hdel (hset (hset σ.nodes p { np with next := some b })
                b { m with prev := some p }) x) none s2 (frontOr (p :: b :: t2) none)
                = segb σ.nodes none s2 (frontOr (p :: b :: t2) none) :=
              segb_congr σ.nodes _ none _ s2 (fun a ha =>
                hother a (fun hc => hxs (hc ▸ List.mem_append_left _ ha))
                  (fun hc => hps2 (hc ▸ ha))
                  (fun hc => (sdisj (List.mem_append_left _ (hc ▸ ha))) hbt))
            rw [hcg]; exact hsegs2
          · rw [segb_cons_iff]
            refine ⟨{ np with next := some b }, hgp3, hnpp, rfl, ?_⟩
            rw [segb_cons_iff]
            refine ⟨{ m with prev := some p }, hgb3, rfl, hmn, ?_⟩
            have hcg2 : segb (hdel (hset (hset σ.nodes p { np with next := some b })
                b { m with prev := some p }) x) (some b) t2 none
                = segb σ.nodes (some b) t2 none :=
              segb_congr σ.nodes _ (some b) none t2 (fun a ha =>
                hother a (fun hc => hxt (hc ▸ List.mem_cons_of_mem b ha))
                  (fun hc => (sdisj (hc ▸ hpmem)) (List.mem_cons_of_mem b ha))
                  (fun hc => hbt2 (hc ▸ ha)))
            rw [hcg2]; exact hsegt2
        · intro a ha
          have hamem : a ∈ (s2 ++ [p]) ++ b :: t2 := ha
          have hax : ¬ a = x := haxne a hamem
          rw [strOf_del_congr _ σ n.data a rfl (hd3 a hax) (hdok a hamem)]
          exact hstrs a (mem_lift _ _ x a hamem)
        · have hmapc : ∀ a ∈ (s2 ++ [p]) ++ b :: t2,
              dataOf { σ with
                nodes := hdel (hset (hset σ.nodes p { np with next := some b }) b
                  { m with prev := some p }) x,
                strs := hdel σ.strs n.data } a = dataOf σ a := by
            intro a ha
            exact dataOf_pt (hd3 a (haxne a ha))
          rw [List.map_congr_left hmapc]
          exact hdnt

theorem hget_cons {α : Type} (c : Nat) (w : α) (t : List (Nat × α)) (a : Nat) :
    hget ((c, w) :: t) a = if c = a then some w else hget t a := rfl

theorem hset_cons {α : Type} (c : Nat) (w : α) (t : List (Nat × α)) (a : Nat)
    (v : α) : hset ((c, w) :: t) a v =
      if c = a then (c, v) :: hset t a v else (c, w) :: hset t a v := rfl

theorem mem_keys_iff_isSome {α : Type} (h : List (Nat × α)) (a : Nat) :
    a ∈ keysOf h ↔ (hget h a).isSome = true := by
  induction h with
  | nil => simp [keysOf, hget]
  | cons p t ih =>
    obtain ⟨c, w⟩ := p
    rw [keysOf_cons, List.mem_cons, hget_cons]
    by_cases hca : c = a
    · subst hca; simp
    · have hac : ¬ a = c := fun hc => hca hc.symm
      simp [hca, hac, ih]

/-- Successful `make_node` with an all-success allocation plan: a fresh node
at the old counter whose string copy sits at the next address. -/
theorem make_node_spec (σ : State) (d : String) (hplan : σ.allocPlan = [])
    (hwf : stateWF σ) :
    make_node σ d = (some σ.nextAddr,
      { σ with nodes := (σ.nextAddr, ⟨none, none, σ.nextAddr + 1⟩) :: σ.nodes,
               strs := (σ.nextAddr + 1, d) :: σ.strs,
               nextAddr := σ.nextAddr + 2 }) := by
  have hna : ¬ σ.nextAddr ∈ keysOf σ.nodes := fun hc =>
    lt_irrefl _ (hwf.1 _ hc)
  have hh : hset ((σ.nextAddr, (⟨none, none, 0⟩ : Node)) :: σ.nodes) σ.nextAddr
      (⟨none, none, σ.nextAddr + 1⟩ : Node)
      = (σ.nextAddr, (⟨none, none, σ.nextAddr + 1⟩ : Node)) :: σ.nodes := by
    rw [hset_cons, if_pos rfl, hset_not_mem σ.nodes σ.nextAddr _ hna]
  unfold make_node mallocOk
  simp [hplan, hh]

theorem stateWF_of_same (σ2 σ : State) (hwf : stateWF σ)
    (hsome : ∀ a, (hget σ2.nodes a).isSome = (hget σ.nodes a).isSome)
    (hstrs : σ2.strs = σ.strs) (hnext : σ2.nextAddr = σ.nextAddr) :
    stateWF σ2 := by
  constructor
  · intro a ha
    rw [mem_keys_iff_isSome, hsome, ← mem_keys_iff_isSome] at ha
    rw [hnext]
    exact hwf.1 a ha
  · intro a ha
    rw [hstrs] at ha
    rw [hnext]
    exact hwf.2 a ha

/-- Successful `insert_end` of a fresh allocated node appends it at the tail
of a list satisfying the representation invariant. -/
theorem insert_end_spec (σ : State) (as : List Nat) (y : Nat) (w : Node)
    (hinv : listInv σ as) (hy : hget σ.nodes y = some w) (hyn : ¬ y ∈ as)
    (hys : (strOf σ y).isSome = true)
    (hyd : ¬ dataOf σ y ∈ as.map (dataOf σ)) :
    ∃ σ2, insert_end σ true (some y) = some (0, σ2) ∧
      listInv σ2 (as ++ [y]) ∧
      σ2.strs = σ.strs ∧ σ2.nextAddr = σ.nextAddr ∧ σ2.allocPlan = σ.allocPlan ∧
      (∀ a, strOf σ2 a = strOf σ a) ∧
      (∀ a, dataOf σ2 a = dataOf σ a) ∧
      (∀ a, (hget σ2.nodes a).isSome = (hget σ.nodes a).isSome) := by
  rcases List.eq_nil_or_concat' as with rfl | ⟨s2, xl, rfl⟩
  · have hl0 : σ.lst.last = none := hinv.2.1
    have hh0 : σ.lst.head = none := hinv.1
    set h2 := hset σ.nodes y { w with prev := none, next := none } with hh2
    have hdata : ∀ a, (hget h2 a).map Node.data =
        (hget σ.nodes a).map Node.data := by
      intro a
      by_cases hay : a = y
      · subst hay
        rw [hh2, hget_hset_eq _ _ _ (by simp [hy]), hy]
        rfl
      · rw [hh2, hget_hset_ne _ _ _ _ hay]
    set σ2v : State := { σ with lst := ⟨some y, some y⟩, nodes := h2 } with hσ2v
    refine ⟨σ2v, ?_, ?_, rfl, rfl, rfl, strOf_congr σ2v σ rfl hdata,
      dataOf_congr σ2v σ hdata, fun a => isSome_congr_of_data (hdata a)⟩
    · simp only [insert_end, hl0, insert_front, hh0, hy, hσ2v, hh2]
    · have hgy : hget h2 y = some { w with prev := none, next := none } := by
        rw [hh2]
        exact hget_hset_eq _ _ _ (by simp [hy])
      refine ⟨rfl, rfl, by simp, ?_, ?_, by simp⟩
      · rw [List.nil_append, segb_cons_iff]
        exact ⟨{ w with prev := none, next := none }, hgy, rfl, rfl, rfl⟩
      · intro a ha
        have hay : a = y := by simpa using ha
        subst hay
        rw [strOf_congr σ2v σ rfl hdata a]
        exact hys
  · have hl0 : σ.lst.last = some xl := by
      rw [hinv.2.1, backOr_append]
      rfl
    obtain ⟨σ2, hrun, hinv2, hhead2, _, _, hstr2, hnext2, hplan2, hstrOf2, hdOf2,
      hsome2⟩ := insert_after_spec σ s2 [] xl y w hinv hy hyn hys hyd
    refine ⟨σ2, ?_, ?_, hstr2, hnext2, hplan2, hstrOf2, hdOf2, hsome2⟩
    · simp only [insert_end, hl0]
      exact hrun
    · have hr : (s2 ++ [xl]) ++ [y] = s2 ++ xl :: y :: [] := by simp
      rw [hr]
      exact hinv2

/-- Allocating a fresh node (with its fresh string copy) on top of a
well-formed state preserves the invariant of the existing list and yields a
node satisfying the freshness hypotheses of the insertion lemmas. -/
theorem extend_fresh (σ σm : State) (as : List Nat) (d : String)
    (hinv : listInv σ as) (hwf : stateWF σ)
    (hm : σm = { σ with
      nodes := (σ.nextAddr, ⟨none, none, σ.nextAddr + 1⟩) :: σ.nodes,
      strs := (σ.nextAddr + 1, d) :: σ.strs, nextAddr := σ.nextAddr + 2 }) :
    listInv σm as ∧ ¬ σ.nextAddr ∈ as ∧
    hget σm.nodes σ.nextAddr = some ⟨none, none, σ.nextAddr + 1⟩ ∧
    (strOf σm σ.nextAddr).isSome = true ∧
    ¬ dataOf σm σ.nextAddr ∈ as.map (dataOf σm) ∧
    stateWF σm ∧ σm.allocPlan = σ.allocPlan ∧
    strOf σm σ.nextAddr = some d ∧
    (∀ a ∈ as, strOf σm a = strOf σ a) := by
  subst hm
  have hlt : ∀ a ∈ as, a < σ.nextAddr := by
    intro a ha
    have hsome := segb_isSome σ.nodes none none as hinv.2.2.2.1 a ha
    exact hwf.1 a ((mem_keys_iff_isSome σ.nodes a).mpr hsome)
  have hgn : ∀ a ∈ as,
      hget ((σ.nextAddr, (⟨none, none, σ.nextAddr + 1⟩ : Node)) :: σ.nodes) a
        = hget σ.nodes a := by
    intro a ha
    rw [hget_cons,
      if_neg (fun hc : σ.nextAddr = a => absurd (hc ▸ hlt a ha) (lt_irrefl _))]
  have hdmem : ∀ a ∈ as, dataOf σ a ∈ keysOf σ.strs := by
    intro a ha
    have hs := hinv.2.2.2.2.1 a ha
    unfold strOf at hs
    unfold dataOf
    cases hga : hget σ.nodes a with
    | none => rw [hga] at hs; simp at hs
    | some n =>
      rw [hga] at hs
      simp only [] at hs
      exact (mem_keys_iff_isSome σ.strs n.data).mpr hs
  have hstrOfm : ∀ a ∈ as, strOf { σ with
      nodes := (σ.nextAddr, ⟨none, none, σ.nextAddr + 1⟩) :: σ.nodes,
      strs := (σ.nextAddr + 1, d) :: σ.strs, nextAddr := σ.nextAddr + 2 } a
      = strOf σ a := by
    intro a ha
    unfold strOf
    simp only []
    rw [hgn a ha]
    cases hga : hget σ.nodes a with
    | none => rfl
    | some n =>
      have hda : n.data ∈ keysOf σ.strs := by
        have hmem := hdmem a ha
        unfold dataOf at hmem
        rw [hga] at hmem
        exact hmem
      have hlt2 : n.data < σ.nextAddr := hwf.2 _ hda
      show hget ((σ.nextAddr + 1, d) :: σ.strs) n.data = hget σ.strs n.data
      rw [hget_cons, if_neg (fun hc : σ.nextAddr + 1 = n.data => by omega)]
  have hdOfm : ∀ a ∈ as, dataOf { σ with
      nodes := (σ.nextAddr, ⟨none, none, σ.nextAddr + 1⟩) :: σ.nodes,
      strs := (σ.nextAddr + 1, d) :: σ.strs, nextAddr := σ.nextAddr + 2 } a
      = dataOf σ a := by
    intro a ha
    unfold dataOf
    simp only []
    rw [hgn a ha]
  refine ⟨⟨hinv.1, hinv.2.1, hinv.2.2.1, ?_, ?_, ?_⟩, ?_, ?_, ?_, ?_, ?_, ?_, ?_, hstrOfm⟩
  · show segb _ none as none = true
    have hcg := segb_congr σ.nodes
      ((σ.nextAddr, (⟨none, none, σ.nextAddr + 1⟩ : Node)) :: σ.nodes)
      none none as hgn
    rw [hcg]
    exact hinv.2.2.2.1
  · intro a ha
    rw [hstrOfm a ha]
    exact hinv.2.2.2.2.1 a ha
  · rw [List.map_congr_left hdOfm]
    exact hinv.2.2.2.2.2
  · intro hc
    exact absurd (hlt _ hc) (lt_irrefl _)
  · exact hget_cons_eq _ _ _
  · unfold strOf
    rw [hget_cons_eq]
    simp [hget_cons_eq]
  · intro hc
    rw [List.mem_map] at hc
    obtain ⟨a, ha, heq⟩ := hc
    rw [hdOfm a ha] at heq
    have h1 : dataOf σ a < σ.nextAddr := hwf.2 _ (hdmem a ha)
    have h2 : dataOf { σ with
        nodes := (σ.nextAddr, ⟨none, none, σ.nextAddr + 1⟩) :: σ.nodes,
        strs := (σ.nextAddr + 1, d) :: σ.strs, nextAddr := σ.nextAddr + 2 }
        σ.nextAddr = σ.nextAddr + 1 := by
      unfold dataOf
      simp only []
      rw [hget_cons_eq]
    rw [h2] at heq
    omega
  · constructor
    · intro a ha
      rw [keysOf_cons, List.mem_cons] at ha
      show a < σ.nextAddr + 2
      rcases ha with rfl | ha
      · omega
      · have := hwf.1 a ha
        omega
    · intro a ha
      rw [keysOf_cons, List.mem_cons] at ha
      show a < σ.nextAddr + 2
      rcases ha with rfl | ha
      · omega
      · have := hwf.2 a ha
        omega
  · rfl
  · unfold strOf
    rw [hget_cons_eq]
    simp [hget_cons_eq]

/-- Loop invariant of `init_list`: with an all-success allocation plan, after
consuming `fuel` further inputs the chain holds copies of exactly the inputs
seen so far, in order, and satisfies the representation invariant. -/
theorem init_loop_spec (ds : List String) (fuel : Nat) : ∀ σ as i,
    σ.allocPlan = [] → stateWF σ → listInv σ as →
    as.length = i → as.map (strOf σ) = (ds.take i).map some →
    i + fuel ≤ ds.length →
    ∃ σ2 as2, init_loop ds σ i fuel = some (0, σ2) ∧
      σ2.allocPlan = [] ∧ stateWF σ2 ∧ listInv σ2 as2 ∧
      as2.length = i + fuel ∧
      as2.map (strOf σ2) = (ds.take (i + fuel)).map some := by
  induction fuel with
  | zero =>
    intro σ as i hplan hwf hinv hlen hmap hle
    exact ⟨σ, as, rfl, hplan, hwf, hinv, by omega, by simpa using hmap⟩
  | succ fuel ih =>
    intro σ as i hplan hwf hinv hlen hmap hle
    have hi : i < ds.length := by omega
    have hgets : ds[i]? = some ds[i] := List.getElem?_eq_getElem hi
    have hmk := make_node_spec σ ds[i] hplan hwf
    obtain ⟨hinvm, hnamem, hgetm, hstrm, hdatm, hwfm, hplanm, hstrval, hstrkeep⟩ :=
      extend_fresh σ _ as ds[i] hinv hwf rfl
    obtain ⟨σe, hrune, hinve, hstre, hnexte, hplane, hstrOfe, hdOfe, hsomee⟩ :=
      insert_end_spec _ as σ.nextAddr ⟨none, none, σ.nextAddr + 1⟩
        hinvm hgetm hnamem hstrm hdatm
    have hplane2 : σe.allocPlan = [] := by rw [hplane, hplanm, hplan]
    have hwfe : stateWF σe := stateWF_of_same σe _ hwfm hsomee hstre hnexte
    have hlene : (as ++ [σ.nextAddr]).length = i + 1 := by
      simp [hlen]
    have hmape : (as ++ [σ.nextAddr]).map (strOf σe) =
        (ds.take (i + 1)).map some := by
      have h1 : as.map (strOf σe) = as.map (strOf σ) :=
        List.map_congr_left (fun a ha => by rw [hstrOfe a, hstrkeep a ha])
      have h2 : strOf σe σ.nextAddr = some ds[i] := by rw [hstrOfe, hstrval]
      rw [List.take_succ, hgets, List.map_append, List.map_append, h1, hmap]
      simp [h2]
    have hle2 : (i + 1) + fuel ≤ ds.length := by omega
    obtain ⟨σ2, as2, hrun2, hp2, hw2, hi2, hl2, hm2⟩ :=
      ih σe (as ++ [σ.nextAddr]) (i + 1) hplane2 hwfe hinve hlene hmape hle2
    refine ⟨σ2, as2, ?_, hp2, hw2, hi2, by omega, by
      have hif : i + (fuel + 1) = (i + 1) + fuel := by omega
      rw [hif]; exact hm2⟩
    show init_loop ds σ i (fuel + 1) = some (0, σ2)
    rw [init_loop]
    rw [hgets]
    simp only [Option.bind_eq_bind, Option.some_bind]
    rw [hmk]
    simp only []
    rw [hrune]
    simp only [Option.some_bind]
    exact hrun2

/-- The abstract description of `find`: walk the member addresses in
head-to-tail order and return the first whose stored string equals the
target (so with duplicate values the earliest match wins). -/
def findAbs (σ : State) (tgt : String) : List Nat → Option Nat
  | [] => none
  | a :: rest => if strOf σ a = some tgt then some a else findAbs σ tgt rest

theorem findAbs_cons (σ : State) (tgt : String) (a : Nat) (rest : List Nat) :
    findAbs σ tgt (a :: rest) =
      if strOf σ a = some tgt then some a else findAbs σ tgt rest := rfl

theorem find_loop_spec (σ : State) (tgt : String) (as : List Nat) :
    ∀ p fuel, segb σ.nodes p as none = true →
    (∀ a ∈ as, (strOf σ a).isSome = true) →
    as.length < fuel →
    find_loop σ tgt (frontOr as none) fuel = some (findAbs σ tgt as) := by
  induction as with
  | nil =>
    intro p fuel _ _ _
    cases fuel <;> rfl
  | cons a rest ih =>
    intro p fuel hseg hstrs hfuel
    rw [segb_cons_iff] at hseg
    obtain ⟨n, hn, _, hnx, hrest⟩ := hseg
    cases fuel with
    | zero => omega
    | succ fuel =>
      have hs := hstrs a (List.mem_cons_self a rest)
      have hsv : ∃ s, hget σ.strs n.data = some s := by
        unfold strOf at hs
        rw [hn] at hs
        exact Option.isSome_iff_exists.mp hs
      obtain ⟨s, hsv⟩ := hsv
      have hstra : strOf σ a = some s := by
        unfold strOf
        rw [hn]
        exact hsv
      show find_loop σ tgt (some a) (fuel + 1) = some (findAbs σ tgt (a :: rest))
      rw [find_loop, hn]
      simp only [Option.bind_eq_bind, Option.some_bind]
      rw [hsv]
      simp only [Option.some_bind]
      by_cases hst : s = tgt
      · rw [if_pos hst, findAbs_cons, if_pos (by rw [hstra, hst])]
      · rw [if_neg hst, findAbs_cons,
          if_neg (by rw [hstra]; exact fun hc => hst (Option.some_inj.mp hc)),
          hnx]
        exact ih (some a) fuel hrest
          (fun b hb => hstrs b (List.mem_cons_of_mem a hb)) (by simp at hfuel; omega)

/-- `find` on a list satisfying the representation invariant returns exactly
the first matching member, head to tail. -/
theorem find_spec (σ : State) (as : List Nat) (tgt : String)
    (hinv : listInv σ as) :
    find σ true (some tgt) = some (findAbs σ tgt as) := by
  obtain ⟨hhead, _, hnodup, hseg, hstrs, _⟩ := hinv
  have hsub : ∀ a ∈ as, a ∈ keysOf σ.nodes := fun a ha =>
    (mem_keys_iff_isSome _ _).mpr (segb_isSome _ _ _ _ hseg a ha)
  have hlen : as.length ≤ σ.nodes.length := by
    have hl := nodup_length_le as (keysOf σ.nodes) hnodup hsub
    simpa [keysOf] using hl
  show find_loop σ tgt σ.lst.head (σ.nodes.length + 1) = some (findAbs σ tgt as)
  rw [hhead]
  exact find_loop_spec σ tgt as none (σ.nodes.length + 1) hseg hstrs (by omega)

theorem dealloc_loop_spec (as : List Nat) : ∀ σ p fuel,
    segb σ.nodes p as none = true →
    as.Nodup →
    (∀ a ∈ as, (strOf σ a).isSome = true) →
    (as.map (dataOf σ)).Nodup →
    as.length < fuel →
    ∃ σ2, dealloc_loop σ (frontOr as none) fuel = some σ2 ∧
      σ2.lst = σ.lst ∧ σ2.nextAddr = σ.nextAddr ∧ σ2.allocPlan = σ.allocPlan ∧
      (∀ b, hget σ2.nodes b = if b ∈ as then none else hget σ.nodes b) ∧
      (∀ sb, hget σ2.strs sb =
        if sb ∈ as.map (dataOf σ) then none else hget σ.strs sb) := by
  induction as with
  | nil =>
    intro σ p fuel _ _ _ _ _
    exact ⟨σ, by cases fuel <;> rfl, rfl, rfl, rfl, fun b => by simp,
      fun sb => by simp⟩
  | cons a rest ih =>
    intro σ p fuel hseg hnodup hstrs hdn hfuel
    rw [segb_cons_iff] at hseg
    obtain ⟨n, hn, _, hnx, hrest⟩ := hseg
    cases fuel with
    | zero => omega
    | succ fuel =>
      set σ1 : State := { σ with strs := hdel σ.strs n.data, nodes := hdel σ.nodes a } with hσ1
      have hna : ¬ a ∈ rest := (List.nodup_cons.mp hnodup).1
      have hrestnd : rest.Nodup := (List.nodup_cons.mp hnodup).2
      have hfa : dataOf σ a = n.data := by unfold dataOf; rw [hn]
      have hdarest : ∀ b ∈ rest, dataOf σ b ≠ n.data := by
        intro b hb hc
        have h1 : (List.map (dataOf σ) (a :: rest)).Nodup := hdn
        rw [List.map_cons, List.nodup_cons] at h1
        exact h1.1 (hfa ▸ hc ▸ List.mem_map_of_mem (dataOf σ) hb)
      have hgn1 : ∀ b ∈ rest, hget σ1.nodes b = hget σ.nodes b := by
        intro b hb
        rw [hσ1]
        exact hget_hdel_ne _ _ _ (fun hc => hna (hc ▸ hb))
      have hd1 : ∀ b ∈ rest, (hget σ1.nodes b).map Node.data =
          (hget σ.nodes b).map Node.data := fun b hb => by rw [hgn1 b hb]
      have hseg1 : segb σ1.nodes (some a) rest none = true := by
        rw [segb_congr σ.nodes σ1.nodes _ _ rest hgn1]
        exact hrest
      have hstrs1 : ∀ b ∈ rest, (strOf σ1 b).isSome = true := by
        intro b hb
        rw [strOf_del_congr σ1 σ n.data b (by rw [hσ1]) (hd1 b hb) (hdarest b hb)]
        exact hstrs b (List.mem_cons_of_mem a hb)
      have hdn1 : (rest.map (dataOf σ1)).Nodup := by
        rw [List.map_congr_left (fun b hb => dataOf_pt (hd1 b hb))]
        have h1 : (List.map (dataOf σ) (a :: rest)).Nodup := hdn
        rw [List.map_cons, List.nodup_cons] at h1
        exact h1.2
      obtain ⟨σ2, hrun2, hlst2, hnext2, hplan2, hnodes2, hstrs2⟩ :=
        ih σ1 (some a) fuel hseg1 hrestnd hstrs1 hdn1 (by simp at hfuel; omega)
      refine ⟨σ2, ?_, ?_, ?_, ?_, ?_, ?_⟩
      · show dealloc_loop σ (some a) (fuel + 1) = some σ2
        rw [dealloc_loop, hn]
        simp only [Option.bind_eq_bind, Option.some_bind]
        rw [← hσ1, hnx]
        exact hrun2
      · rw [hlst2, hσ1]
      · rw [hnext2, hσ1]
      · rw [hplan2, hσ1]
      · intro b
        rw [hnodes2 b]
        by_cases hbr : b ∈ rest
        · rw [if_pos hbr, if_pos (List.mem_cons_of_mem a hbr)]
        · by_cases hba : b = a
          · subst hba
            rw [if_neg hbr, if_pos (List.mem_cons_self b rest), hσ1]
            exact hget_hdel_eq σ.nodes b
          · have hnc : ¬ b ∈ a :: rest := by
              rw [List.mem_cons]
              exact fun hc => hc.elim (fun h => hba h) (fun h => hbr h)
            rw [if_neg hbr, if_neg hnc, hσ1]
            exact hget_hdel_ne σ.nodes a b hba
      · intro sb
        rw [hstrs2 sb,
          List.map_congr_left (fun b hb => dataOf_pt (hd1 b hb))]
        by_cases hbr : sb ∈ rest.map (dataOf σ)
        · rw [if_pos hbr, if_pos (by rw [List.map_cons]; exact List.mem_cons_of_mem _ hbr)]
        · by_cases hba : sb = n.data
          · subst hba
            rw [if_neg hbr, if_pos (by rw [List.map_cons, hfa]; exact List.mem_cons_self _ _), hσ1]
            exact hget_hdel_eq σ.strs n.data
          · have hnc : ¬ sb ∈ (a :: rest).map (dataOf σ) := by
              rw [List.map_cons, List.mem_cons, hfa]
              exact fun hc => hc.elim (fun h => hba h) (fun h => hbr h)
            rw [if_neg hbr, if_neg hnc, hσ1]
            exact hget_hdel_ne σ.strs n.data sb hba

/-- `dealloc_list` on a list satisfying the representation invariant frees
exactly the member nodes and their owned string copies, and touches nothing
else — in particular it leaves `head` and `last` as they were. -/
theorem dealloc_list_spec (σ : State) (as : List Nat) (hinv : listInv σ as) :
    ∃ σ2, dealloc_list σ true = some σ2 ∧
      σ2.lst = σ.lst ∧ σ2.nextAddr = σ.nextAddr ∧ σ2.allocPlan = σ.allocPlan ∧
      (∀ b, hget σ2.nodes b = if b ∈ as then none else hget σ.nodes b) ∧
      (∀ sb, hget σ2.strs sb =
        if sb ∈ as.map (dataOf σ) then none else hget σ.strs sb) := by
  obtain ⟨hhead, hlast, hnodup, hseg, hstrs, hdn⟩ := hinv
  have hsub : ∀ a ∈ as, a ∈ keysOf σ.nodes := fun a ha =>
    (mem_keys_iff_isSome _ _).mpr (segb_isSome _ _ _ _ hseg a ha)
  have hlen : as.length < σ.nodes.length + 1 := by
    have hl := nodup_length_le as (keysOf σ.nodes) hnodup hsub
    simp [keysOf] at hl
    omega
  obtain ⟨σ2, hrun, hrest⟩ :=
    dealloc_loop_spec as σ none (σ.nodes.length + 1) hseg hnodup hstrs hdn hlen
  refine ⟨σ2, ?_, hrest⟩
  show dealloc_loop σ σ.lst.head (σ.nodes.length + 1) = some σ2
  rw [hhead]
  exact hrun

/-- The harness's ten-string test vector (`TEST_DATA` in `src/list_lib.c`). -/
def TEST_DATA : List String :=
  ["ABC0", "ABC1", "ABC2", "ABC3", "ABC4", "ABC5", "ABC6", "ABC7", "ABC8", "ABC9"]

/-- A pristine state: empty heaps, fresh counter `0`, every allocation
succeeds, and an uninitialized caller `List` struct. -/
def emptyState : State := ⟨[], [], 0, [], ⟨none, none⟩⟩

/-- A valid one-element list: node `5` holds string address `7` (`"A"`). -/
def oneCellState : State :=
  ⟨[(5, ⟨none, none, 7⟩)], [(7, "A")], 9, [], ⟨some 5, some 5⟩⟩

/-- A valid two-element list (`5 ↔ 6`) plus a detached fresh node `2`. -/
def twoCellState : State :=
  ⟨[(5, ⟨none, some 6, 7⟩), (6, ⟨some 5, none, 8⟩), (2, ⟨none, none, 3⟩)],
   [(7, "A"), (8, "B"), (3, "C")], 9, [], ⟨some 5, some 6⟩⟩

/-- C1: running `init_list` on two strings with the fourth `malloc` (the
second node's string copy) failing.  The rollback does happen — both heaps
are empty afterwards, every node constructed during the call was released —
but the operation returns `ALLOC_FAIL`, and the C `Error` enum makes
`ALLOC_FAIL = 0`, the very value documented as the success indicator
("Returns 0 if successful"), so the caller cannot branch on the failure;
the code contradicts its own interface documentation. -/
theorem init_list_alloc_fail_returns_zero :
    init_list { emptyState with allocPlan := [true, true, true, false] } true
      (some ["A", "B"]) 2
      = some (ALLOC_FAIL, ⟨[], [], 3, [], ⟨some 0, some 0⟩⟩) ∧
    ALLOC_FAIL = 0 := by
  constructor
  · rfl
  · rfl

/-- C2 (counterexample): `init_list` never checks its `list` argument.  With
an absent list but a present data sequence it proceeds past both guards and
dereferences the null list pointer (the undefined-behavior marker `none`),
instead of failing with `NULL_PTR` and leaving the state unchanged as the
claim requires. -/
theorem init_list_null_list_not_nullptr :
    init_list emptyState false (some ["A"]) 1 = none ∧
    ¬ init_list emptyState false (some ["A"]) 1
        = some (NULL_PTR, emptyState) := by
  constructor
  · rfl
  · decide

/-- C2 (amended): `insert_after`, `insert_before`, `insert_front`,
`insert_end` and `remove_node` check every required reference argument at
entry and fail with `NULL_PTR` leaving the state unchanged; `find` likewise
checks both arguments and returns the null "not found" result; `init_list`
checks only its data-sequence argument this way — its `list` argument is not
checked, and with an absent list and a present sequence it dereferences the
null pointer instead. -/
theorem null_argument_checks (σ : State) (lb : Bool) (a b : Option Nat)
    (d : Option String) (dl : Int) (xs : List String) :
    insert_after σ false a b = some (NULL_PTR, σ) ∧
    insert_after σ lb none b = some (NULL_PTR, σ) ∧
    insert_after σ lb a none = some (NULL_PTR, σ) ∧
    insert_before σ false a b = some (NULL_PTR, σ) ∧
    insert_before σ lb none b = some (NULL_PTR, σ) ∧
    insert_before σ lb a none = some (NULL_PTR, σ) ∧
    insert_front σ false a = some (NULL_PTR, σ) ∧
    insert_front σ lb none = some (NULL_PTR, σ) ∧
    insert_end σ false a = some (NULL_PTR, σ) ∧
    insert_end σ lb none = some (NULL_PTR, σ) ∧
    remove_node σ false a = some (NULL_PTR, σ) ∧
    remove_node σ lb none = some (NULL_PTR, σ) ∧
    find σ false d = some none ∧
    find σ true none = some none ∧
    init_list σ lb none dl = some (NULL_PTR, σ) ∧
    init_list σ false (some xs) 0 = none := by
  refine ⟨rfl, ?_, ?_, rfl, ?_, ?_, rfl, ?_, rfl, ?_, rfl, ?_, rfl, rfl, rfl, rfl⟩
  · cases lb <;> rfl
  · cases lb <;> cases a <;> rfl
  · cases lb <;> rfl
  · cases lb <;> cases a <;> rfl
  · cases lb <;> rfl
  · cases lb <;> rfl
  · cases lb <;> rfl

/-- C3 (counterexample): `dealloc_list` on a valid one-element list frees the
node and its string but leaves `head` (and `last`) still pointing at the
freed node — they are not made absent, contrary to the claim. -/
theorem dealloc_list_head_not_absent :
    listInv oneCellState [5] ∧
    dealloc_list oneCellState true = some ⟨[], [], 9, [], ⟨some 5, some 5⟩⟩ ∧
    ¬ (⟨some 5, some 5⟩ : ListS).head = none := by
  refine ⟨?_, ?_, ?_⟩ <;> decide

/-- C3 (amended): for every list satisfying the §3 invariants,
`dealloc_list` releases each member node and its owned string copy and
leaves every other allocation untouched; but `head` and `last` are left
exactly as they were (dangling for a non-empty list), not made absent; on an
absent list the call is a no-op. -/
theorem dealloc_list_releases_all (σ : State) (as : List Nat)
    (hinv : listInv σ as) :
    (∃ σ2, dealloc_list σ true = some σ2 ∧
      (∀ a ∈ as, hget σ2.nodes a = none ∧ hget σ2.strs (dataOf σ a) = none) ∧
      σ2.lst = σ.lst ∧
      (∀ b, ¬ b ∈ as → hget σ2.nodes b = hget σ.nodes b)) ∧
    dealloc_list σ false = some σ := by
  constructor
  · obtain ⟨σ2, hrun, hlst, _, _, hnodes, hstrs⟩ := dealloc_list_spec σ as hinv
    refine ⟨σ2, hrun, ?_, hlst, ?_⟩
    · intro a ha
      constructor
      · rw [hnodes a, if_pos ha]
      · rw [hstrs (dataOf σ a), if_pos (List.mem_map_of_mem (dataOf σ) ha)]
    · intro b hb
      rw [hnodes b, if_neg hb]
  · rfl

theorem dealloc_list_releases_all_witness :
    (∃ σ2, dealloc_list oneCellState true = some σ2 ∧
      (∀ a ∈ [5], hget σ2.nodes a = none ∧
        hget σ2.strs (dataOf oneCellState a) = none) ∧
      σ2.lst = oneCellState.lst ∧
      (∀ b, ¬ b ∈ [5] → hget σ2.nodes b = hget oneCellState.nodes b)) ∧
    dealloc_list oneCellState false = some oneCellState :=
  dealloc_list_releases_all oneCellState [5] (by decide)

/-- C10: when `init_list` rejects its inputs — absent data sequence
(`NULL_PTR`) or negative count (`LEN_INVALID`) — it returns before writing
to the caller's `List` struct: the whole state, `head` and `last` exactly as
the caller supplied them included, is returned unchanged and nothing is
allocated. -/
theorem init_list_early_return_frame (σ : State) (lb : Bool) (dl : Int)
    (xs : List String) :
    init_list σ lb none dl = some (NULL_PTR, σ) ∧
    (dl < 0 → init_list σ lb (some xs) dl = some (LEN_INVALID, σ)) := by
  constructor
  · rfl
  · intro hdl
    simp only [init_list, if_pos hdl]

theorem init_list_early_return_frame_witness :
    init_list emptyState true none (-2) = some (NULL_PTR, emptyState) ∧
    init_list emptyState true (some ["A"]) (-2)
      = some (LEN_INVALID, emptyState) :=
  ⟨(init_list_early_return_frame emptyState true (-2) ["A"]).1,
   (init_list_early_return_frame emptyState true (-2) ["A"]).2 (by decide)⟩

/-- C4: inserting a fresh node `y` (allocated, unattached, with its own valid
string storage) after a member `x` of a list satisfying the §3 invariants
makes `x.next = y` and `y.prev = x`; if `x` was not previously the last node
then `y.next.prev = y`; and if `x` was the last node then the list's tail
reference now equals `y`. -/
theorem insert_after_links (σ : State) (as : List Nat) (x y : Nat) (w : Node)
    (hinv : listInv σ as) (hx : x ∈ as)
    (hy : hget σ.nodes y = some w) (hyn : ¬ y ∈ as)
    (hys : (strOf σ y).isSome = true)
    (hyd : ¬ dataOf σ y ∈ as.map (dataOf σ)) :
    ∃ σ2, insert_after σ true (some x) (some y) = some (0, σ2) ∧
      (∃ nx, hget σ2.nodes x = some nx ∧ nx.next = some y) ∧
      (∃ ny, hget σ2.nodes y = some ny ∧ ny.prev = some x) ∧
      (¬ σ.lst.last = some x →
        ∃ ny b nb, hget σ2.nodes y = some ny ∧ ny.next = some b ∧
          hget σ2.nodes b = some nb ∧ nb.prev = some y) ∧
      (σ.lst.last = some x → σ2.lst.last = some y) := by
  obtain ⟨s, t, rfl⟩ := List.append_of_mem hx
  obtain ⟨σ2, hrun, hinv2, hhead2, hlast_nil, hlast_cons, _, _, _, _, _, _⟩ :=
    insert_after_spec σ s t x y w hinv hy hyn hys hyd
  have hiff := last_eq_iff σ s t x hinv
  refine ⟨σ2, hrun, ?_, ?_, ?_, ?_⟩
  · obtain ⟨nx, hnx, _, hnxn⟩ := listInv_node σ2 s (y :: t) x hinv2
    exact ⟨nx, hnx, by rw [hnxn]; rfl⟩
  · obtain ⟨ny, hny, hnyp, _⟩ := listInv_node σ2 (s ++ [x]) t y
      (by rw [show (s ++ [x]) ++ y :: t = s ++ x :: y :: t by simp]; exact hinv2)
    refine ⟨ny, hny, ?_⟩
    rw [hnyp, backOr_append]
    rfl
  · intro hlast
    have ht : t ≠ [] := fun hteq => hlast (hiff.mpr hteq)
    cases t with
    | nil => exact absurd rfl ht
    | cons b t2 =>
      obtain ⟨ny, hny, _, hnyn⟩ := listInv_node σ2 (s ++ [x]) (b :: t2) y
        (by rw [show (s ++ [x]) ++ y :: b :: t2 = s ++ x :: y :: b :: t2 by simp]
            exact hinv2)
      obtain ⟨nb, hnb, hnbp, _⟩ := listInv_node σ2 (s ++ [x, y]) t2 b
        (by rw [show (s ++ [x, y]) ++ b :: t2 = s ++ x :: y :: b :: t2 by simp]
            exact hinv2)
      refine ⟨ny, b, nb, hny, by rw [hnyn]; rfl, hnb, ?_⟩
      rw [hnbp, show s ++ [x, y] = (s ++ [x]) ++ [y] by simp, backOr_append]
      rfl
  · intro hlast
    exact hlast_nil (hiff.mp hlast)

theorem insert_after_links_witness :
    ∃ σ2, insert_after twoCellState true (some 5) (some 2) = some (0, σ2) ∧
      (∃ nx, hget σ2.nodes 5 = some nx ∧ nx.next = some 2) ∧
      (∃ ny, hget σ2.nodes 2 = some ny ∧ ny.prev = some 5) ∧
      (¬ twoCellState.lst.last = some 5 →
        ∃ ny b nb, hget σ2.nodes 2 = some ny ∧ ny.next = some b ∧
          hget σ2.nodes b = some nb ∧ nb.prev = some 2) ∧
      (twoCellState.lst.last = some 5 → σ2.lst.last = some 2) :=
  insert_after_links twoCellState [5, 6] 5 2 ⟨none, none, 3⟩
    (by decide) (by decide) (by decide) (by decide) (by decide) (by decide)

/-- C5: removing a member `x` of a non-empty list satisfying the §3
invariants succeeds, decreases the element count by exactly one, restores
invariants 1–4 (boundary pointers, bidirectional consistency, termination,
no duplicates) over the remaining members, frees `x` and its string, and
removing the sole element leaves both `head` and `last` absent. -/
theorem remove_node_restores_invariants (σ : State) (as : List Nat) (x : Nat)
    (hinv : listInv σ as) (hx : x ∈ as) :
    ∃ σ2 as2, remove_node σ true (some x) = some (0, σ2) ∧
      listInv σ2 as2 ∧ as2.length + 1 = as.length ∧
      hget σ2.nodes x = none ∧ hget σ2.strs (dataOf σ x) = none ∧
      (as = [x] → σ2.lst.head = none ∧ σ2.lst.last = none) := by
  obtain ⟨s, t, rfl⟩ := List.append_of_mem hx
  obtain ⟨σ2, hrun, hinv2, hx2, hs2, _, _⟩ := remove_node_spec σ s t x hinv
  refine ⟨σ2, s ++ t, hrun, hinv2,
    by simp only [List.length_append, List.length_cons]; omega, hx2, hs2, ?_⟩
  intro heq
  have hlen := congrArg List.length heq
  simp at hlen
  have hs0 : s = [] := List.eq_nil_of_length_eq_zero (by omega)
  have ht0 : t = [] := List.eq_nil_of_length_eq_zero (by omega)
  subst hs0
  subst ht0
  exact ⟨hinv2.1, hinv2.2.1⟩

theorem remove_node_restores_invariants_witness :
    ∃ σ2 as2, remove_node oneCellState true (some 5) = some (0, σ2) ∧
      listInv σ2 as2 ∧ as2.length + 1 = ([5] : List Nat).length ∧
      hget σ2.nodes 5 = none ∧
      hget σ2.strs (dataOf oneCellState 5) = none ∧
      (([5] : List Nat) = [5] → σ2.lst.head = none ∧ σ2.lst.last = none) :=
  remove_node_restores_invariants oneCellState [5] 5 (by decide) (by decide)

/-- C6: building a list with `init_list` from a present sequence of strings
and a count `n` within the sequence (every `malloc` succeeding) returns the
success indicator and yields a list of exactly `n` members that satisfies
all §3 invariants and whose stored strings are copies of the first `n`
inputs, in input order. -/
theorem init_list_builds_list (σ : State) (xs : List String) (n : Nat)
    (hplan : σ.allocPlan = []) (hwf : stateWF σ) (hn : n ≤ xs.length) :
    ∃ σ2 as, init_list σ true (some xs) (n : Int) = some (0, σ2) ∧
      listInv σ2 as ∧ as.length = n ∧
      as.map (strOf σ2) = (xs.take n).map some := by
  have hneg : ¬ ((n : Int) < 0) := by omega
  have hinv0 : listInv { σ with lst := ⟨none, none⟩ } [] :=
    ⟨rfl, rfl, List.nodup_nil, rfl, by intro a ha; simp at ha, List.nodup_nil⟩
  have hwf0 : stateWF { σ with lst := ⟨none, none⟩ } := ⟨hwf.1, hwf.2⟩
  obtain ⟨σ2, as2, hrun, _, _, hinv2, hlen2, hmap2⟩ :=
    init_loop_spec xs n { σ with lst := ⟨none, none⟩ } [] 0 hplan hwf0 hinv0
      rfl (by simp) (by omega)
  refine ⟨σ2, as2, ?_, hinv2, by omega, by simpa using hmap2⟩
  have htn : ((n : Int)).toNat = n := Int.toNat_natCast n
  simp only [init_list, if_neg hneg, htn]
  exact hrun

theorem init_list_builds_list_witness :
    ∃ σ2 as, init_list emptyState true (some ["A", "B"]) ((2 : Nat) : Int)
        = some (0, σ2) ∧
      listInv σ2 as ∧ as.length = 2 ∧
      as.map (strOf σ2) = ((["A", "B"] : List String).take 2).map some :=
  init_list_builds_list emptyState ["A", "B"] 2 rfl (by decide) (by decide)

/-- C7: `find` on a list satisfying the §3 invariants walks head to tail and
returns exactly the first member whose stored string equals the target
(`findAbs`, the abstract first-match walk — so with duplicates the earliest
match wins, and an empty or matchless list gives the null "not found"
result); with an absent list or target it likewise returns the null result,
structurally indistinguishable from "not found" through the return channel. -/
theorem find_first_match (σ : State) (as : List Nat) (tgt : String)
    (d : Option String) (hinv : listInv σ as) :
    find σ true (some tgt) = some (findAbs σ tgt as) ∧
    findAbs σ tgt [] = none ∧
    find σ false d = some none ∧
    find σ true none = some none :=
  ⟨find_spec σ as tgt hinv, rfl, rfl, rfl⟩

theorem find_first_match_witness :
    find oneCellState true (some "A")
        = some (findAbs oneCellState "A" [5]) ∧
    findAbs oneCellState "A" [] = none ∧
    find oneCellState false (some "A") = some none ∧
    find oneCellState true none = some none :=
  find_first_match oneCellState [5] "A" (some "A") (by decide)

/-- C8: the harness round trip.  Build the list from the ten strings
`"ABC0" .. "ABC9"`, remove the node returned by `find "ABC4"`, and search
again: the second search reports "not found" (the null result), and the
front-to-back walk of the remaining list reads off the other nine strings in
their original relative order. -/
def rtBuilt : Option State :=
  match init_list emptyState true (some TEST_DATA) 10 with
  | some (c, σ1) => if c = 0 then some σ1 else none
  | none => none

/-- The state after removing the node that `find "ABC4"` returned from the
freshly built ten-element list. -/
def rtAfterRemove : Option State :=
  match rtBuilt with
  | none => none
  | some σ1 =>
    match find σ1 true (some "ABC4") with
    | some (some a4) =>
      match remove_node σ1 true (some a4) with
      | some (c, σ2) => if c = 0 then some σ2 else none
      | none => none
    | _ => none

theorem round_trip_remove_abc4 :
    (rtAfterRemove.map fun σ2 =>
      (find σ2 true (some "ABC4"),
        chainData σ2 σ2.lst.head (σ2.nodes.length + 1)))
      = some (some none,
        ["ABC0", "ABC1", "ABC2", "ABC3", "ABC5", "ABC6", "ABC7", "ABC8",
         "ABC9"]) := by
  decide

/-- C9: for a member `x` whose `next` link is present (so `x` is not the
tail), splicing a fresh node after `x` leaves both `head` and `last` of the
list unchanged; symmetrically, for a member `x` whose `prev` link is present
(so `x` is not the head), splicing a fresh node before `x` leaves both
`head` and `last` unchanged. -/
theorem insert_preserves_boundaries (σ : State) (as : List Nat) (x y : Nat)
    (w : Node) (hinv : listInv σ as) (hx : x ∈ as)
    (hy : hget σ.nodes y = some w) (hyn : ¬ y ∈ as)
    (hys : (strOf σ y).isSome = true)
    (hyd : ¬ dataOf σ y ∈ as.map (dataOf σ)) :
    (∀ nx, hget σ.nodes x = some nx → ¬ nx.next = none →
      ∃ σ2, insert_after σ true (some x) (some y) = some (0, σ2) ∧
        σ2.lst.head = σ.lst.head ∧ σ2.lst.last = σ.lst.last) ∧
    (∀ nx, hget σ.nodes x = some nx → ¬ nx.prev = none →
      ∃ σ2, insert_before σ true (some x) (some y) = some (0, σ2) ∧
        σ2.lst.head = σ.lst.head ∧ σ2.lst.last = σ.lst.last) := by
  obtain ⟨s, t, rfl⟩ := List.append_of_mem hx
  obtain ⟨n, hn, hnp, hnn⟩ := listInv_node σ s t x hinv
  constructor
  · intro nx hnx hnxn
    have hne : nx = n := by
      rw [hn] at hnx
      exact (Option.some_inj.mp hnx).symm
    have ht : t ≠ [] := by
      intro hteq
      subst hteq
      exact hnxn (by rw [hne]; exact hnn)
    obtain ⟨σ2, hrun, _, hhead2, _, hlast2, _, _, _, _, _, _⟩ :=
      insert_after_spec σ s t x y w hinv hy hyn hys hyd
    exact ⟨σ2, hrun, hhead2, hlast2 ht⟩
  · intro nx hnx hnxp
    have hne : nx = n := by
      rw [hn] at hnx
      exact (Option.some_inj.mp hnx).symm
    have hs : s ≠ [] := by
      intro hseq
      subst hseq
      exact hnxp (by rw [hne]; exact hnp)
    obtain ⟨σ2, hrun, hlst⟩ := insert_before_frame σ s t x y w hinv hy hyn hs
    exact ⟨σ2, hrun, by rw [hlst], by rw [hlst]⟩

theorem insert_preserves_boundaries_witness :
    (∃ σ2, insert_after twoCellState true (some 5) (some 2) = some (0, σ2) ∧
      σ2.lst.head = twoCellState.lst.head ∧
      σ2.lst.last = twoCellState.lst.last) ∧
    (∃ σ2, insert_before twoCellState true (some 6) (some 2) = some (0, σ2) ∧
      σ2.lst.head = twoCellState.lst.head ∧
      σ2.lst.last = twoCellState.lst.last) :=
  ⟨(insert_preserves_boundaries twoCellState [5, 6] 5 2 ⟨none, none, 3⟩
      (by decide) (by decide) (by decide) (by decide) (by decide)
      (by decide)).1 ⟨none, some 6, 7⟩ (by decide) (by decide),
   (insert_preserves_boundaries twoCellState [5, 6] 6 2 ⟨none, none, 3⟩
      (by decide) (by decide) (by decide) (by decide) (by decide)
      (by decide)).2 ⟨some 5, none, 8⟩ (by decide) (by decide)⟩
